import Mathlib

/-!
Verification of the subtitle-slot core of the SherafyVideoMaker pipeline
(`scripts/auto_srt/pipeline.py`).  The pure core — text cleaning,
whitespace tokenization, proportional word allocation, slot building and
slot assignment — is embedded shallowly: Python floats become rationals,
Python lists become Lean lists, and the two `while` loops (slot building
and the rounding-adjustment loop) become fuel-based recursions whose fuel
is proved sufficient under the loops' actual preconditions.
-/

/-- Python's whitespace class (the characters matched by `\s` in `re` and
stripped by `str.strip()`): ASCII control whitespace, the file/group/record
separators, and the Unicode space characters. -/
def isSpace (c : Char) : Bool :=
  let n := c.toNat
  (9 ≤ n && n ≤ 13) || (28 ≤ n && n ≤ 31) || n == 32 || n == 133 || n == 160 ||
    n == 5760 || (8192 ≤ n && n ≤ 8202) || n == 8232 || n == 8233 ||
    n == 8239 || n == 8287 || n == 12288

/-- The four punctuation marks of the regex `[,.!?]` in `clean_text`. -/
def isPunct (c : Char) : Bool :=
  c == ',' || c == '.' || c == '!' || c == '?'

/-- Python `str.strip()`: remove leading and trailing whitespace. -/
def pyStrip (l : List Char) : List Char :=
  ((l.dropWhile isSpace).reverse.dropWhile isSpace).reverse

/-- `re.sub(r"\s+", " ", text)`: every maximal run of whitespace becomes a
single space.  The Boolean argument records whether the previous character
belonged to a whitespace run (in which case further run characters are
dropped). -/
def collapseAux : Bool → List Char → List Char
  | _, [] => []
  | prevWs, c :: rest =>
    if isSpace c then
      if prevWs then collapseAux true rest else ' ' :: collapseAux true rest
    else c :: collapseAux false rest

/-- `re.sub(r"\s+([,.!?])", r"\1", text)`: a maximal whitespace run that is
immediately followed by one of `, . ! ?` is deleted.  `run` buffers the
(reversed) current whitespace run that has not yet seen its follower. -/
def punctAux : List Char → List Char → List Char
  | run, [] => run.reverse
  | run, c :: rest =>
    if isSpace c then punctAux (c :: run) rest
    else if run ≠ [] && isPunct c then c :: punctAux [] rest
    else run.reverse ++ c :: punctAux [] rest

/-- Character-level body of `clean_text`: strip, collapse whitespace runs,
remove whitespace before punctuation — in the source's order. -/
def cleanChars (l : List Char) : List Char :=
  punctAux [] (collapseAux false (pyStrip l))

/-- `clean_text` from the source. -/
def clean_text (s : String) : String :=
  String.mk (cleanChars s.toList)

/-- `re.findall(r"\S+", text)` : the maximal runs of non-whitespace
characters, in order.  `cur` buffers the (reversed) current token. -/
def tokenizeAux : List Char → List Char → List (List Char)
  | cur, [] => if cur = [] then [] else [cur.reverse]
  | cur, c :: rest =>
    if isSpace c then
      if cur = [] then tokenizeAux [] rest else cur.reverse :: tokenizeAux [] rest
    else tokenizeAux (c :: cur) rest

/-- `word_tokenize` from the source: `re.findall(r"\S+", text.strip())`. -/
def word_tokenize (s : String) : List String :=
  (tokenizeAux [] (pyStrip s.toList)).map String.mk

/-- Python `sep.join(parts)`. -/
def pyJoin (sep : String) (parts : List String) : String :=
  String.mk (List.intercalate sep.toList (parts.map String.toList))

/-- Python 3 `round` on a non-integral value: round half to even. -/
def pyRound (q : ℚ) : ℤ :=
  let f := ⌊q⌋
  if q - f < 1/2 then f
  else if q - f > 1/2 then f + 1
  else if f % 2 = 0 then f else f + 1

/-- Insert an index into a list of indices sorted by strictly descending
key, placing it after all earlier indices of equal key (stability, as in
Python's `sorted(..., reverse=True)`). -/
def insertDesc (key : ℕ → ℚ) (i : ℕ) : List ℕ → List ℕ
  | [] => [i]
  | j :: rest => if key j < key i then i :: j :: rest else j :: insertDesc key i rest

/-- `sorted(range(n), key=lambda i: overlaps[i], reverse=True)`. -/
def sortedDescIndices (ovs : List ℚ) : List ℕ :=
  (List.range ovs.length).foldl (fun acc i => insertDesc (fun j => ovs.getD j 0) i acc) []

/-- The rounding-adjustment `while` loop of `allocate_words_by_overlaps`:
while `diff ≠ 0` (and the slot count is positive), visit the slots in order
of descending overlap, cyclically; add one to the visited target if `diff`
is positive, remove one if `diff` is negative and the target is positive.
`fuel` bounds the number of iterations; the development proves the fuel
used by `adjustedPair` always suffices, so the recursion computes exactly
the loop's fixpoint. -/
def adjustLoop : ℕ → List ℕ → List ℤ → ℤ → ℕ → List ℤ × ℤ
  | 0, _, targets, diff, _ => (targets, diff)
  | fuel + 1, order, targets, diff, idx =>
    if diff = 0 then (targets, diff)
    else if order.length = 0 then (targets, diff)
    else
      let i := order.getD (idx % order.length) 0
      let t := targets.getD i 0
      if 0 < diff then adjustLoop fuel order (targets.set i (t + 1)) (diff - 1) (idx + 1)
      else if 0 < t then adjustLoop fuel order (targets.set i (t - 1)) (diff + 1) (idx + 1)
      else adjustLoop fuel order targets diff (idx + 1)

/-- `[int(round(len(words) * (ov / total))) for ov in overlaps]`. -/
def initialTargets (L : ℕ) (ovs : List ℚ) : List ℤ :=
  ovs.map (fun ov => pyRound ((L : ℚ) * (ov / ovs.sum)))

/-- Initial targets, then the adjustment loop; returns the final
`(targets, diff)` pair. -/
def adjustedPair (words : List String) (ovs : List ℚ) : List ℤ × ℤ :=
  let targets := initialTargets words.length ovs
  let diff := (words.length : ℤ) - targets.sum
  adjustLoop (diff.natAbs * ovs.length) (sortedDescIndices ovs) targets diff 0

/-- The final slicing loop of `allocate_words_by_overlaps`: every slot but
the last takes `targets[i]` words off the front; the last slot takes the
whole remainder. -/
def sliceOut : List String → List ℤ → List (List String)
  | _, [] => []
  | ws, [_] => [ws]
  | ws, t :: rest => ws.take t.toNat :: sliceOut (ws.drop t.toNat) rest

/-- `allocate_words_by_overlaps` from the source. -/
def allocate_words_by_overlaps (words : List String) (overlaps : List ℚ) : List (List String) :=
  let n := overlaps.length
  if n = 0 then []
  else if words = [] then List.replicate n []
  else if overlaps.sum ≤ 0 then List.replicate (n - 1) [] ++ [words]
  else sliceOut words (adjustedPair words overlaps).1

/-- One subtitle slot: the dict `{"start": t, "end": end, "texts": []}`. -/
structure Slot where
  start : ℚ
  stop : ℚ
  texts : List String
deriving DecidableEq, Repr, Inhabited

/-- The `1e-6` epsilon of `build_slots`. -/
def eps : ℚ := 1 / 1000000

/-- The `while t < audio_duration_sec - 1e-6` loop of `build_slots`,
fuel-based.  Each iteration emits the slot `[t, min (t + slot) dur)` and
advances `t` to its end. -/
def buildSlotsAux (dur slot : ℚ) : ℕ → ℚ → List Slot
  | 0, _ => []
  | fuel + 1, t =>
    if t < dur - eps then
      { start := t, stop := min (t + slot) dur, texts := [] } ::
        buildSlotsAux dur slot fuel (min (t + slot) dur)
    else []

/-- `build_slots` from the source.  The fuel `⌈dur/slot⌉ + 1` is proved
sufficient whenever `slot > 0` (the loop advances `t` by `slot` each step
except possibly the last). -/
def build_slots (dur slot : ℚ) : List Slot :=
  buildSlotsAux dur slot ((⌈dur / slot⌉).toNat + 1) 0

/-- In-place update of one list element (`slots[i]["texts"].append(...)`
style mutation); out-of-range indices leave the list unchanged. -/
def listModify {α : Type} (l : List α) (i : ℕ) (f : α → α) : List α :=
  match l, i with
  | [], _ => []
  | a :: rest, 0 => f a :: rest
  | a :: rest, i + 1 => a :: listModify rest i f

/-- Append one rendered chunk to a slot's `texts`. -/
def appendText (entry : String) (s : Slot) : Slot :=
  { s with texts := s.texts ++ [entry] }

/-- `for i, chunk in zip(slot_indices, chunks): if chunk:
slots[i]["texts"].append(" ".join(chunk))`. -/
def applyChunks (slots : List Slot) (l : List (ℕ × List String)) : List Slot :=
  l.foldl (fun acc p => if p.2 = [] then acc
    else listModify acc p.1 (appendText (pyJoin (" ") p.2))) slots

/-- `i = max(0, min(i, len(slots) - 1))`. -/
def clampIdx (z : ℤ) (k : ℕ) : ℕ :=
  (max 0 (min z ((k : ℤ) - 1))).toNat

/-- A transcript fragment: the dict `{"timestamp": ts, "text": text}`
where `ts` is `None` or a pair of optionally-`None` floats. -/
structure Seg where
  timestamp : Option (Option ℚ × Option ℚ)
  text : String
deriving DecidableEq, Repr

/-- The body of the `for seg in segments` loop of
`build_srt_slots_from_segments`, acting on the state
(current slots, untimed-text buffer). -/
def processSeg (dur slot pad : ℚ) (st : List Slot × List String) (seg : Seg) :
    List Slot × List String :=
  let text := clean_text seg.text
  if text = "" then st
  else
    match seg.timestamp with
    | none => (st.1, st.2 ++ [text])
    | some (none, _) => (st.1, st.2 ++ [text])
    | some (_, none) => (st.1, st.2 ++ [text])
    | some (some s0, some s1) =>
      if s1 ≤ s0 then (st.1, st.2 ++ [text])
      else
        let s1p := min (s1 + pad) dur
        let k := st.1.length
        let i0 := clampIdx ⌊max 0 s0 / slot⌋ k
        let i1 := clampIdx ⌊max 0 (s1p - eps) / slot⌋ k
        let idxs := List.range' i0 (i1 + 1 - i0)
        let ovs := idxs.map (fun i =>
          let a := max s0 (st.1.getD i default).start
          let b := min s1p (st.1.getD i default).stop
          max 0 (b - a))
        let words := word_tokenize text
        let chunks := allocate_words_by_overlaps words ovs
        (applyChunks st.1 (idxs.zip chunks), st.2)

/-- `build_srt_slots_from_segments` from the source. -/
def build_srt_slots_from_segments (segments : List Seg) (dur slot pad : ℚ) : List Slot :=
  let slots := build_slots dur slot
  if slots = [] then slots
  else
    let st := segments.foldl (processSeg dur slot pad) (slots, [])
    if st.2 = [] then st.1
    else listModify st.1 (st.1.length - 1) (appendText (pyJoin (" ") st.2))

/-! ## Basic facts about the allocator's slicing pass -/

theorem sliceOut_flatten (ws : List String) (ts : List ℤ) (h : ts ≠ []) :
    (sliceOut ws ts).flatten = ws := by
  induction ts generalizing ws with
  | nil => exact absurd rfl h
  | cons t rest ih =>
    cases rest with
    | nil => simp [sliceOut]
    | cons u us =>
      simp only [sliceOut, List.flatten_cons]
      rw [ih (ws.drop t.toNat) (by simp)]
      exact List.take_append_drop _ _

theorem sliceOut_length (ws : List String) (ts : List ℤ) :
    (sliceOut ws ts).length = ts.length := by
  induction ts generalizing ws with
  | nil => simp [sliceOut]
  | cons t rest ih =>
    cases rest with
    | nil => simp [sliceOut]
    | cons u us => simp [sliceOut, ih]

theorem sliceOut_mem (ws : List String) (ts : List ℤ) :
    ∀ ch ∈ sliceOut ws ts, ∀ w ∈ ch, w ∈ ws := by
  induction ts generalizing ws with
  | nil => simp [sliceOut]
  | cons t rest ih =>
    cases rest with
    | nil => intro ch hch w hw; simp [sliceOut] at hch; subst hch; exact hw
    | cons u us =>
      intro ch hch w hw
      simp only [sliceOut, List.mem_cons] at hch
      rcases hch with h | h
      · subst h; exact List.mem_of_mem_take hw
      · exact List.mem_of_mem_drop (ih (ws.drop t.toNat) ch h w hw)

theorem adjustLoop_fst_length (f : ℕ) (o : List ℕ) (t : List ℤ) (d : ℤ) (i : ℕ) :
    ((adjustLoop f o t d i).1).length = t.length := by
  induction f generalizing t d i with
  | zero => rfl
  | succ f ih =>
    simp only [adjustLoop]
    split
    · rfl
    · split
      · rfl
      · split
        · rw [ih]; exact List.length_set _ _ _
        · split
          · rw [ih]; exact List.length_set _ _ _
          · exact ih _ _ _

theorem adjustedPair_fst_length (words : List String) (ovs : List ℚ) :
    ((adjustedPair words ovs).1).length = ovs.length := by
  unfold adjustedPair
  rw [adjustLoop_fst_length]
  simp [initialTargets]

theorem allocate_length (words : List String) (ovs : List ℚ) :
    (allocate_words_by_overlaps words ovs).length = ovs.length := by
  simp only [allocate_words_by_overlaps]
  split_ifs with h1 h2 h3
  · simp [h1]
  · simp
  · have : 1 ≤ ovs.length := Nat.one_le_iff_ne_zero.mpr h1
    simp; omega
  · rw [sliceOut_length, adjustedPair_fst_length]

theorem allocate_mem (words : List String) (ovs : List ℚ) :
    ∀ ch ∈ allocate_words_by_overlaps words ovs, ∀ w ∈ ch, w ∈ words := by
  simp only [allocate_words_by_overlaps]
  split_ifs with h1 h2 h3
  · simp
  · intro ch hch w hw
    rw [List.eq_of_mem_replicate hch] at hw
    exact absurd hw (List.not_mem_nil w)
  · intro ch hch w hw
    rcases List.mem_append.1 hch with h | h
    · rw [List.eq_of_mem_replicate h] at hw
      exact absurd hw (List.not_mem_nil w)
    · rw [List.mem_singleton.1 h] at hw; exact hw
  · exact sliceOut_mem _ _

theorem allocate_flatten (words : List String) (ovs : List ℚ) (h : ovs ≠ []) :
    (allocate_words_by_overlaps words ovs).flatten = words := by
  simp only [allocate_words_by_overlaps]
  split_ifs with h1 h2 h3
  · exact absurd (List.length_eq_zero.1 h1) h
  · simp [h2]
  · simp
  · apply sliceOut_flatten
    intro hnil
    have h1' := adjustedPair_fst_length words ovs
    rw [hnil] at h1'
    exact h (List.length_eq_zero.1 h1'.symm)

/-! ## Claims C2 and C4: allocator no-loss and degenerate weights -/

/-- C2 (counterexample to the claim as stated): the claim quantifies over
weight sequences of length `N ≥ 0`, but for `N = 0` and a non-empty token
sequence the allocator returns `[]`, so the concatenation of the outputs is
empty and the input tokens are lost. -/
theorem claim_C2_counterexample :
    (allocate_words_by_overlaps ["a"] []).flatten ≠ ["a"] := by
  simp [allocate_words_by_overlaps]

/-- C2 (amended): for every token sequence and every non-empty sequence of
non-negative weights (`N ≥ 1`), the concatenation, in order, of the `N`
output sequences of the allocator equals the input token sequence exactly —
no loss, no duplication, no reordering.  (For `N = 0` the output is empty,
so a non-empty token sequence is dropped.) -/
theorem claim_C2_no_loss (words : List String) (ovs : List ℚ)
    (hn : ovs ≠ []) (hnn : ∀ ov ∈ ovs, 0 ≤ ov) :
    (allocate_words_by_overlaps words ovs).flatten = words :=
  allocate_flatten words ovs hn

theorem claim_C2_no_loss_witness :
    (([1, 2] : List ℚ) ≠ [] ∧ ∀ ov ∈ ([1, 2] : List ℚ), 0 ≤ ov) ∧
      (allocate_words_by_overlaps ["x", "y", "z"] [1, 2]).flatten = ["x", "y", "z"] :=
  ⟨⟨by simp, by norm_num⟩, claim_C2_no_loss _ _ (by simp) (by norm_num)⟩

/-- C4: with a non-empty token sequence and a weight sequence of length
`N ≥ 1` summing to zero, the allocator places the entire token sequence in
the last output and every other output is empty; in particular
`allocate ["a","b","c"] [0,0] = [[], ["a","b","c"]]`; with `N = 0` the
result is empty; with an empty token sequence the result is `N` empty
sequences. -/
theorem claim_C4_degenerate_weights (words : List String) (ovs : List ℚ)
    (hw : words ≠ []) (hn : ovs ≠ []) (hsum : ovs.sum = 0) :
    allocate_words_by_overlaps words ovs = List.replicate (ovs.length - 1) [] ++ [words] ∧
    allocate_words_by_overlaps ["a", "b", "c"] [0, 0] = [[], ["a", "b", "c"]] ∧
    (∀ ws : List String, allocate_words_by_overlaps ws [] = []) ∧
    (∀ os : List ℚ, allocate_words_by_overlaps [] os = List.replicate os.length []) := by
  refine ⟨?_, by simp [allocate_words_by_overlaps, List.replicate], ?_, ?_⟩
  · simp only [allocate_words_by_overlaps]
    split_ifs with h1 h2
    · exact absurd (List.length_eq_zero.1 h1) hn
    · rfl
    · exact absurd (le_of_eq hsum) h2
  · intro ws
    simp [allocate_words_by_overlaps]
  · intro os
    simp only [allocate_words_by_overlaps]
    split_ifs with h1
    · simp [List.length_eq_zero.1 h1]
    · rfl

theorem claim_C4_degenerate_weights_witness :
    ((["a", "b", "c"] : List String) ≠ [] ∧ ([0, 0] : List ℚ) ≠ [] ∧
        ([0, 0] : List ℚ).sum = 0) ∧
      allocate_words_by_overlaps ["a", "b", "c"] [0, 0] =
        List.replicate (([0, 0] : List ℚ).length - 1) [] ++ [["a", "b", "c"]] :=
  ⟨⟨by simp, by simp, by simp⟩,
    (claim_C4_degenerate_weights ["a", "b", "c"] [0, 0] (by simp) (by simp) (by simp)).1⟩

/-! ## The rounding-adjustment loop: invariants and termination -/

theorem getD_mem {α : Type} (l : List α) (m : ℕ) (d : α) (h : m < l.length) :
    l.getD m d ∈ l := by
  induction l generalizing m with
  | nil => simp at h
  | cons a rest ih =>
    cases m with
    | zero => simp [List.getD]
    | succ m =>
      simp only [List.getD_cons_succ]
      exact List.mem_cons_of_mem a (ih m (by simpa using h))

theorem sum_set_int (l : List ℤ) (i : ℕ) (v : ℤ) (h : i < l.length) :
    (l.set i v).sum = l.sum - l.getD i 0 + v := by
  induction l generalizing i with
  | nil => simp at h
  | cons a rest ih =>
    cases i with
    | zero => simp [List.getD]; ring
    | succ i =>
      simp only [List.set_cons_succ, List.sum_cons, List.getD_cons_succ]
      rw [ih i (by simpa using h)]
      ring

theorem nonneg_set (l : List ℤ) (i : ℕ) (v : ℤ) (hl : ∀ x ∈ l, 0 ≤ x) (hv : 0 ≤ v) :
    ∀ x ∈ l.set i v, 0 ≤ x := by
  intro x hx
  rcases List.mem_or_eq_of_mem_set hx with h | h
  · exact hl x h
  · exact h ▸ hv

theorem exists_pos_of_sum_pos (l : List ℤ) (hnn : ∀ x ∈ l, 0 ≤ x) (hs : 0 < l.sum) :
    ∃ j, j < l.length ∧ 0 < l.getD j 0 := by
  induction l with
  | nil => simp at hs
  | cons a rest ih =>
    rcases lt_or_le 0 a with ha | ha
    · exact ⟨0, by simp, by simpa [List.getD] using ha⟩
    · have ha' : a = 0 := le_antisymm ha (hnn a (List.mem_cons_self a rest))
      have hs' : 0 < rest.sum := by
        rw [List.sum_cons, ha', zero_add] at hs
        exact hs
      rcases ih (fun x hx => hnn x (List.mem_cons_of_mem a hx)) hs' with ⟨j, hj, hp⟩
      exact ⟨j + 1, by simpa using hj, by simpa [List.getD_cons_succ] using hp⟩

theorem adjustLoop_sum (f : ℕ) (o : List ℕ) (t : List ℤ) (d : ℤ) (idx : ℕ)
    (ho : ∀ j ∈ o, j < t.length) :
    ((adjustLoop f o t d idx).1).sum + (adjustLoop f o t d idx).2 = t.sum + d := by
  induction f generalizing t d idx with
  | zero => rfl
  | succ f ih =>
    simp only [adjustLoop]
    split
    · rfl
    · split
      · rfl
      · have hlen : idx % o.length < o.length :=
          Nat.mod_lt idx (Nat.pos_of_ne_zero (by assumption))
        have hi : o.getD (idx % o.length) 0 < t.length :=
          ho _ (getD_mem o _ 0 hlen)
        split
        · rw [ih _ _ _ (fun j hj => by rw [List.length_set]; exact ho j hj)]
          rw [sum_set_int _ _ _ hi]
          ring
        · split
          · rw [ih _ _ _ (fun j hj => by rw [List.length_set]; exact ho j hj)]
            rw [sum_set_int _ _ _ hi]
            ring
          · exact ih _ _ _ ho

theorem getD_nonneg (l : List ℤ) (i : ℕ) (h : ∀ x ∈ l, 0 ≤ x) : 0 ≤ l.getD i 0 := by
  rcases lt_or_le i l.length with hi | hi
  · exact h _ (getD_mem l i 0 hi)
  · rw [List.getD_eq_default _ _ hi]

theorem adjustLoop_nonneg (f : ℕ) (o : List ℕ) (t : List ℤ) (d : ℤ) (idx : ℕ)
    (hnn : ∀ x ∈ t, 0 ≤ x) :
    ∀ x ∈ (adjustLoop f o t d idx).1, 0 ≤ x := by
  induction f generalizing t d idx with
  | zero => exact hnn
  | succ f ih =>
    simp only [adjustLoop]
    split
    · exact hnn
    · split
      · exact hnn
      · split
        · exact ih _ _ _ (nonneg_set _ _ _ hnn
            (by have := getD_nonneg t (o.getD (idx % o.length) 0) hnn; omega))
        · split
          · exact ih _ _ _ (nonneg_set _ _ _ hnn (by omega))
          · exact ih _ _ _ hnn

theorem adjustLoop_zero_diff (f : ℕ) (o : List ℕ) (t : List ℤ) (idx : ℕ) :
    (adjustLoop f o t 0 idx).2 = 0 := by
  cases f with
  | zero => rfl
  | succ f => simp [adjustLoop]

theorem adjustLoop_pos_diff (f : ℕ) (o : List ℕ) (t : List ℤ) (d : ℤ) (idx : ℕ)
    (hd : 0 ≤ d) (hf : d.toNat ≤ f) (ho : o.length ≠ 0) :
    (adjustLoop f o t d idx).2 = 0 := by
  induction f generalizing t d idx with
  | zero =>
    have hd0 : d = 0 := by omega
    subst hd0
    rfl
  | succ f ih =>
    rcases eq_or_ne d 0 with rfl | h0
    · exact adjustLoop_zero_diff _ _ _ _
    · simp only [adjustLoop]
      rw [if_neg h0, if_neg ho, if_pos (show 0 < d by omega)]
      exact ih _ _ _ (by omega) (by omega)

theorem adjustLoop_neg_diff (o : List ℕ) (f : ℕ) : ∀ (t : List ℤ) (d : ℤ) (idx kk : ℕ),
    o.Perm (List.range t.length) →
    (∀ x ∈ t, 0 ≤ x) →
    0 ≤ t.sum + d →
    d < 0 →
    kk < o.length →
    0 < t.getD (o.getD ((idx + kk) % o.length) 0) 0 →
    (∀ j, j < kk → t.getD (o.getD ((idx + j) % o.length) 0) 0 = 0) →
    (d.natAbs - 1) * o.length + kk + 1 ≤ f →
    (adjustLoop f o t d idx).2 = 0 := by
  induction f with
  | zero =>
    intro t d idx kk hperm hnn hsum hd hkk hpos hmin hf
    omega
  | succ f ih =>
    intro t d idx kk hperm hnn hsum hd hkk hpos hmin hf
    have hlen0 : o.length ≠ 0 := by omega
    have hlenpos : 0 < o.length := Nat.pos_of_ne_zero hlen0
    simp only [adjustLoop]
    rw [if_neg (by omega : ¬ d = 0), if_neg hlen0, if_neg (by omega : ¬ 0 < d)]
    have hip : o.getD (idx % o.length) 0 < t.length := by
      have hmem : o.getD (idx % o.length) 0 ∈ o :=
        getD_mem o _ 0 (Nat.mod_lt idx hlenpos)
      exact List.mem_range.1 (hperm.mem_iff.1 hmem)
    rcases Nat.eq_zero_or_pos kk with hk0 | hkpos
    · -- the current position already has a positive target: decrement
      subst hk0
      have hpos' : 0 < t.getD (o.getD (idx % o.length) 0) 0 := by simpa using hpos
      rw [if_pos hpos']
      have hsum' : (t.set (o.getD (idx % o.length) 0)
          (t.getD (o.getD (idx % o.length) 0) 0 - 1)).sum = t.sum - 1 := by
        rw [sum_set_int _ _ _ hip]; omega
      rcases eq_or_lt_of_le (show d + 1 ≤ 0 by omega) with hzero | hneg
      · rw [hzero]
        exact adjustLoop_zero_diff _ _ _ _
      · -- diff still negative: find the next positive target cyclically
        have hnn' : ∀ x ∈ t.set (o.getD (idx % o.length) 0)
            (t.getD (o.getD (idx % o.length) 0) 0 - 1), 0 ≤ x :=
          nonneg_set _ _ _ hnn (by omega)
        have hsumpos : 0 < (t.set (o.getD (idx % o.length) 0)
            (t.getD (o.getD (idx % o.length) 0) 0 - 1)).sum := by omega
        rcases exists_pos_of_sum_pos _ hnn' hsumpos with ⟨j0, hj0len, hj0pos⟩
        have hj0len' : j0 < t.length := by simpa [List.length_set] using hj0len
        have hj0mem : j0 ∈ o := hperm.mem_iff.2 (List.mem_range.2 hj0len')
        rcases List.getElem_of_mem hj0mem with ⟨m, hm, hom⟩
        have homD : o.getD m 0 = j0 := by rw [List.getD_eq_getElem _ _ hm, hom]
        have hk0lt : (m + o.length - (idx + 1) % o.length) % o.length < o.length :=
          Nat.mod_lt _ hlenpos
        have harith : (idx + 1 + (m + o.length - (idx + 1) % o.length) % o.length)
            % o.length = m := by
          have h1 : (idx + 1 + (m + o.length - (idx + 1) % o.length) % o.length)
              % o.length = ((idx + 1) % o.length
                + (m + o.length - (idx + 1) % o.length) % o.length) % o.length := by
            conv_lhs => rw [Nat.add_mod]
            rw [Nat.mod_eq_of_lt hk0lt]
          rw [h1, Nat.add_mod_mod,
            Nat.add_sub_cancel' (le_trans (le_of_lt (Nat.mod_lt _ hlenpos))
              (Nat.le_add_left _ _)),
            Nat.add_mod_right]
          exact Nat.mod_eq_of_lt hm
        have hk0P : 0 < (t.set (o.getD (idx % o.length) 0)
            (t.getD (o.getD (idx % o.length) 0) 0 - 1)).getD
              (o.getD ((idx + 1 + (m + o.length - (idx + 1) % o.length) % o.length)
                % o.length) 0) 0 := by
          rw [harith, homD]
          exact hj0pos
        have hex : ∃ k, 0 < (t.set (o.getD (idx % o.length) 0)
            (t.getD (o.getD (idx % o.length) 0) 0 - 1)).getD
              (o.getD ((idx + 1 + k) % o.length) 0) 0 := ⟨_, hk0P⟩
        have hkk'lt : Nat.find hex < o.length := lt_of_le_of_lt (Nat.find_le hk0P) hk0lt
        have hAbs : (d + 1).natAbs = d.natAbs - 1 := by omega
        have hA2 : 2 ≤ d.natAbs := by omega
        have hmul : (d.natAbs - 1) * o.length
            = ((d.natAbs - 1) - 1) * o.length + o.length := by
          have h2 : d.natAbs - 1 = ((d.natAbs - 1) - 1) + 1 := by omega
          conv_lhs => rw [h2, Nat.succ_mul]
        refine ih _ _ _ (Nat.find hex) (by simpa [List.length_set] using hperm) hnn'
          (by omega) hneg hkk'lt (Nat.find_spec hex) ?_ ?_
        · intro j hj
          have hnp := Nat.find_min hex hj
          have hge := getD_nonneg (t.set (o.getD (idx % o.length) 0)
            (t.getD (o.getD (idx % o.length) 0) 0 - 1))
            (o.getD ((idx + 1 + j) % o.length) 0) hnn'
          omega
        · rw [hAbs]
          omega
    · -- the current target is zero: skip this index
      have hcur : t.getD (o.getD (idx % o.length) 0) 0 = 0 := by
        have := hmin 0 hkpos
        simpa using this
      rw [if_neg (show ¬ 0 < t.getD (o.getD (idx % o.length) 0) 0 by omega)]
      refine ih _ _ _ (kk - 1) hperm hnn hsum hd (by omega) ?_ ?_ (by omega)
      · have harg : idx + 1 + (kk - 1) = idx + kk := by omega
        rw [harg]
        exact hpos
      · intro j hj
        have harg : idx + 1 + j = idx + (j + 1) := by omega
        rw [harg]
        exact hmin (j + 1) (by omega)

theorem insertDesc_perm (key : ℕ → ℚ) (i : ℕ) (l : List ℕ) :
    (insertDesc key i l).Perm (i :: l) := by
  induction l with
  | nil => exact List.Perm.refl _
  | cons j rest ih =>
    simp only [insertDesc]
    split
    · exact List.Perm.refl _
    · exact (List.Perm.cons j ih).trans (List.Perm.swap i j rest)

theorem foldl_insertDesc_perm (key : ℕ → ℚ) (l acc : List ℕ) :
    (l.foldl (fun a j => insertDesc key j a) acc).Perm (l ++ acc) := by
  induction l generalizing acc with
  | nil => simp
  | cons x rest ih =>
    simp only [List.foldl_cons, List.cons_append]
    exact ((ih (insertDesc key x acc)).trans
      (List.Perm.append_left rest (insertDesc_perm key x acc))).trans
        List.perm_middle

theorem sortedDescIndices_perm (ovs : List ℚ) :
    (sortedDescIndices ovs).Perm (List.range ovs.length) := by
  have h := foldl_insertDesc_perm (fun j => ovs.getD j 0) (List.range ovs.length) []
  simpa [sortedDescIndices] using h

theorem pyRound_nonneg (q : ℚ) (hq : 0 ≤ q) : 0 ≤ pyRound q := by
  have hf : 0 ≤ ⌊q⌋ := Int.floor_nonneg.mpr hq
  simp only [pyRound]
  split_ifs <;> omega

theorem initialTargets_length (L : ℕ) (ovs : List ℚ) :
    (initialTargets L ovs).length = ovs.length := by
  simp [initialTargets]

theorem initialTargets_nonneg (L : ℕ) (ovs : List ℚ) (hov : ∀ ov ∈ ovs, 0 ≤ ov) :
    ∀ x ∈ initialTargets L ovs, 0 ≤ x := by
  intro x hx
  simp only [initialTargets, List.mem_map] at hx
  rcases hx with ⟨ov, hmem, rfl⟩
  apply pyRound_nonneg
  have h1 : (0 : ℚ) ≤ ov := hov ov hmem
  have h2 : (0 : ℚ) ≤ ovs.sum := List.sum_nonneg hov
  positivity

/-- C9: for every token sequence and every sequence of non-negative weights
the allocator is total: the result always has one output per weight, and —
the interesting part — whenever the proportional-rounding loop actually runs
(positive weight sum, non-empty tokens) it reaches a state where the final
diff is zero, i.e. the integer targets sum exactly to the token count.  The
fuel `|diff| * n` given to the loop embedding is thereby proved sufficient,
so the embedding computes the Python `while` loop's true fixpoint and the
loop terminates. -/
theorem claim_C9_allocator_totality (words : List String) (ovs : List ℚ)
    (hov : ∀ ov ∈ ovs, 0 ≤ ov) :
    (allocate_words_by_overlaps words ovs).length = ovs.length ∧
    (0 < ovs.sum → words ≠ [] →
      (adjustedPair words ovs).2 = 0 ∧
      ((adjustedPair words ovs).1).sum = (words.length : ℤ)) := by
  refine ⟨allocate_length words ovs, fun hsum hw => ?_⟩
  have hne : ovs ≠ [] := by
    rintro rfl
    simp at hsum
  have hnelen : ovs.length ≠ 0 := fun h => hne (List.length_eq_zero.1 h)
  have hlen : (initialTargets words.length ovs).length = ovs.length :=
    initialTargets_length _ _
  have hperm : (sortedDescIndices ovs).Perm
      (List.range (initialTargets words.length ovs).length) := by
    rw [hlen]
    exact sortedDescIndices_perm ovs
  have holen : (sortedDescIndices ovs).length = ovs.length := by
    have h := hperm.length_eq
    simpa [hlen] using h
  have hnn : ∀ x ∈ initialTargets words.length ovs, 0 ≤ x :=
    initialTargets_nonneg _ _ hov
  have hbnd : ∀ j ∈ sortedDescIndices ovs,
      j < (initialTargets words.length ovs).length := by
    intro j hj
    exact List.mem_range.1 (hperm.mem_iff.1 hj)
  have hL1 : 1 ≤ words.length := List.length_pos.2 hw
  set t0 := initialTargets words.length ovs with ht0
  set d := (words.length : ℤ) - t0.sum with hdd
  have hsum0 : t0.sum + d = (words.length : ℤ) := by rw [hdd]; ring
  have hdone : (adjustLoop (d.natAbs * ovs.length) (sortedDescIndices ovs) t0 d 0).2 = 0 := by
    rcases lt_trichotomy d 0 with hneg | hzero | hpos
    · have hsumpos : 0 < t0.sum := by omega
      rcases exists_pos_of_sum_pos t0 hnn hsumpos with ⟨j0, hj0, hj0p⟩
      have hj0mem : j0 ∈ sortedDescIndices ovs := hperm.mem_iff.2 (List.mem_range.2 hj0)
      rcases List.getElem_of_mem hj0mem with ⟨m, hm, hom⟩
      have homD : (sortedDescIndices ovs).getD m 0 = j0 := by
        rw [List.getD_eq_getElem _ _ hm, hom]
      have hmP : 0 < t0.getD ((sortedDescIndices ovs).getD
          ((0 + m) % (sortedDescIndices ovs).length) 0) 0 := by
        rw [Nat.zero_add, Nat.mod_eq_of_lt hm, homD]
        exact hj0p
      have hex : ∃ k, 0 < t0.getD ((sortedDescIndices ovs).getD
          ((0 + k) % (sortedDescIndices ovs).length) 0) 0 := ⟨m, hmP⟩
      obtain ⟨K, hKpos, hKmin, hKlt⟩ :
          ∃ K, 0 < t0.getD ((sortedDescIndices ovs).getD
              ((0 + K) % (sortedDescIndices ovs).length) 0) 0 ∧
            (∀ j, j < K → t0.getD ((sortedDescIndices ovs).getD
              ((0 + j) % (sortedDescIndices ovs).length) 0) 0 = 0) ∧
            K < (sortedDescIndices ovs).length :=
        ⟨Nat.find hex, Nat.find_spec hex,
          fun j hj => by
            have hnp := Nat.find_min hex hj
            have hge := getD_nonneg t0 ((sortedDescIndices ovs).getD
              ((0 + j) % (sortedDescIndices ovs).length) 0) hnn
            omega,
          lt_of_le_of_lt (Nat.find_le hmP) hm⟩
      apply adjustLoop_neg_diff (sortedDescIndices ovs) _ t0 d 0 K hperm hnn
        (by omega) hneg hKlt hKpos hKmin
      rw [holen] at hKlt ⊢
      have hmul : d.natAbs * ovs.length = (d.natAbs - 1) * ovs.length + ovs.length := by
        have h2 : d.natAbs = (d.natAbs - 1) + 1 := by omega
        conv_lhs => rw [h2, Nat.succ_mul]
      omega
    · rw [hzero]
      exact adjustLoop_zero_diff _ _ _ _
    · apply adjustLoop_pos_diff _ _ _ _ _ (le_of_lt hpos) _ (by rw [holen]; exact hnelen)
      calc d.toNat = d.toNat * 1 := (Nat.mul_one _).symm
        _ ≤ d.toNat * ovs.length := Nat.mul_le_mul_left _ (Nat.one_le_iff_ne_zero.2 hnelen)
        _ = d.natAbs * ovs.length := by
            have habs : d.toNat = d.natAbs := by omega
            rw [habs]
  have hsumfin := adjustLoop_sum (d.natAbs * ovs.length) (sortedDescIndices ovs) t0 d 0 hbnd
  have hpair : adjustedPair words ovs
      = adjustLoop (d.natAbs * ovs.length) (sortedDescIndices ovs) t0 d 0 := by
    simp only [adjustedPair, ht0, hdd]
  rw [hpair]
  exact ⟨hdone, by omega⟩

theorem claim_C9_allocator_totality_witness :
    (∀ ov ∈ ([1, 1, 1] : List ℚ), 0 ≤ ov) ∧
      ((adjustedPair ["a", "b", "c", "d", "e", "f", "g"] [1, 1, 1]).2 = 0 ∧
        ((adjustedPair ["a", "b", "c", "d", "e", "f", "g"] [1, 1, 1]).1).sum = 7) := by
  refine ⟨by norm_num, ?_⟩
  have h := (claim_C9_allocator_totality ["a", "b", "c", "d", "e", "f", "g"] [1, 1, 1]
    (by norm_num)).2 (by norm_num) (by simp)
  simpa using h

/-! ## Structure of the slot list built by `build_slots` -/

/-- Fuel sufficient for the slot-building loop from time `t` on. -/
def slotFuel (dur slot t : ℚ) : ℕ := (⌈(dur - t) / slot⌉).toNat + 1

theorem slotFuel_pos (dur slot t : ℚ) : 1 ≤ slotFuel dur slot t := by
  simp [slotFuel]

theorem slotFuel_step (dur slot t : ℚ) (hslot : 0 < slot) (ht : t < dur - eps) :
    slotFuel dur slot (min (t + slot) dur) < slotFuel dur slot t := by
  have heps : (0 : ℚ) < eps := by norm_num [eps]
  have hpos : 0 < (dur - t) / slot := by
    apply div_pos _ hslot
    linarith
  have hc1 : 1 ≤ ⌈(dur - t) / slot⌉ := Int.ceil_pos.2 hpos
  rcases le_or_lt dur (t + slot) with hc | hc
  · rw [min_eq_right hc]
    simp only [slotFuel, sub_self, zero_div, Int.ceil_zero, Int.toNat_zero]
    omega
  · rw [min_eq_left (le_of_lt hc)]
    have hsub : (dur - (t + slot)) / slot = (dur - t) / slot - 1 := by
      field_simp
      ring
    simp only [slotFuel, hsub, Int.ceil_sub_one]
    omega

theorem buildSlotsAux_nil_iff (dur slot t : ℚ) (f : ℕ) (hf : 1 ≤ f) :
    buildSlotsAux dur slot f t = [] ↔ ¬ t < dur - eps := by
  cases f with
  | zero => omega
  | succ f =>
    simp only [buildSlotsAux]
    split
    · simp [*]
    · simp [*]

theorem buildSlotsAux_texts (dur slot : ℚ) (f : ℕ) :
    ∀ t s, s ∈ buildSlotsAux dur slot f t → s.texts = [] := by
  induction f with
  | zero => intro t s h; simp [buildSlotsAux] at h
  | succ f ih =>
    intro t s h
    simp only [buildSlotsAux] at h
    split at h
    · rcases List.mem_cons.1 h with rfl | h'
      · rfl
      · exact ih _ _ h'
    · simp at h

theorem buildSlotsAux_start_lt (dur slot : ℚ) (f : ℕ) :
    ∀ t s, s ∈ buildSlotsAux dur slot f t → s.start < dur - eps := by
  induction f with
  | zero => intro t s h; simp [buildSlotsAux] at h
  | succ f ih =>
    intro t s h
    simp only [buildSlotsAux] at h
    split at h
    · rcases List.mem_cons.1 h with rfl | h'
      · assumption
      · exact ih _ _ h'
    · simp at h

theorem buildSlotsAux_stop_le (dur slot : ℚ) (f : ℕ) :
    ∀ t s, s ∈ buildSlotsAux dur slot f t → s.stop ≤ dur := by
  induction f with
  | zero => intro t s h; simp [buildSlotsAux] at h
  | succ f ih =>
    intro t s h
    simp only [buildSlotsAux] at h
    split at h
    · rcases List.mem_cons.1 h with rfl | h'
      · exact min_le_right _ _
      · exact ih _ _ h'
    · simp at h

theorem buildSlotsAux_get? (dur slot : ℚ) (hslot : 0 < slot) (f : ℕ) :
    ∀ t i s, slotFuel dur slot t ≤ f →
      (buildSlotsAux dur slot f t).get? i = some s →
      s.start = t + i * slot ∧ s.stop = min (t + (i + 1) * slot) dur := by
  induction f with
  | zero =>
    intro t i s hf
    have := slotFuel_pos dur slot t
    omega
  | succ f ih =>
    intro t i s hf hget
    simp only [buildSlotsAux] at hget
    split at hget
    · cases i with
      | zero =>
        simp only [List.get?_cons_zero, Option.some_inj] at hget
        subst hget
        constructor
        · simp
        · simp
      | succ i =>
        simp only [List.get?_cons_succ] at hget
        rcases le_or_lt dur (t + slot) with hc | hc
        · rw [min_eq_right hc] at hget
          have hnil : buildSlotsAux dur slot f dur = [] := by
            rcases Nat.eq_zero_or_pos f with rfl | hfpos
            · rfl
            · rw [buildSlotsAux_nil_iff dur slot dur f hfpos]
              have heps : (0 : ℚ) < eps := by norm_num [eps]
              linarith
          rw [hnil] at hget
          simp at hget
        · rw [min_eq_left (le_of_lt hc)] at hget
          have hfuel : slotFuel dur slot (t + slot) ≤ f := by
            have hstep := slotFuel_step dur slot t hslot (by assumption)
            rw [min_eq_left (le_of_lt hc)] at hstep
            omega
          rcases ih (t + slot) i s hfuel hget with ⟨h1, h2⟩
          constructor
          · rw [h1]
            push_cast
            ring
          · rw [h2]
            congr 1
            push_cast
            ring
    · simp at hget

theorem build_slots_fuel (dur slot : ℚ) :
    build_slots dur slot = buildSlotsAux dur slot (slotFuel dur slot 0) 0 := by
  simp [build_slots, slotFuel]

theorem build_slots_get? (dur slot : ℚ) (hslot : 0 < slot) (i : ℕ) (s : Slot)
    (h : (build_slots dur slot).get? i = some s) :
    s.start = i * slot ∧ s.stop = min ((i + 1) * slot) dur := by
  rw [build_slots_fuel] at h
  have hh := buildSlotsAux_get? dur slot hslot (slotFuel dur slot 0) 0 i s le_rfl h
  simpa using hh

theorem build_slots_ne_nil_iff (dur slot : ℚ) :
    build_slots dur slot ≠ [] ↔ eps < dur := by
  rw [build_slots_fuel]
  rw [ne_eq, buildSlotsAux_nil_iff dur slot 0 _ (slotFuel_pos dur slot 0)]
  constructor
  · intro h
    have := not_not.1 h
    linarith
  · intro h hc
    exact hc (by linarith)

theorem buildSlotsAux_last_stop (dur slot : ℚ) (f : ℕ) :
    ∀ t s, slotFuel dur slot t ≤ f → 0 < slot →
      (buildSlotsAux dur slot f t).getLast? = some s → dur - eps ≤ s.stop := by
  induction f with
  | zero =>
    intro t s hf
    have := slotFuel_pos dur slot t
    omega
  | succ f ih =>
    intro t s hf hslot hlast
    simp only [buildSlotsAux] at hlast
    split at hlast
    · rcases hnil : buildSlotsAux dur slot f (min (t + slot) dur) with _ | ⟨b, l⟩
      · rw [hnil] at hlast
        simp only [List.getLast?_singleton, Option.some_inj] at hlast
        subst hlast
        have hfpos : 1 ≤ f := by
          have h1 := slotFuel_step dur slot t hslot (by assumption)
          have h2 := slotFuel_pos dur slot (min (t + slot) dur)
          omega
        have := (buildSlotsAux_nil_iff dur slot (min (t + slot) dur) f hfpos).1 hnil
        simp only [not_lt] at this
        exact this
      · rw [hnil] at hlast
        rw [List.getLast?_cons_cons] at hlast
        have hfuel : slotFuel dur slot (min (t + slot) dur) ≤ f := by
          have h1 := slotFuel_step dur slot t hslot (by assumption)
          omega
        have hres := ih (min (t + slot) dur) s hfuel hslot (by rw [hnil]; exact hlast)
        exact hres
    · simp at hlast

/-- C3 (counterexample to the claim as stated): the build loop stops as soon
as `t ≥ totalDuration - 1e-6`, so for `totalDuration = 7 + 1e-7` and
`slotLength = 7` a single slot `[0, 7)` is built and the last slot's end
`7` differs from `totalDuration` — the claimed exact coverage fails. -/
theorem claim_C3_counterexample :
    0 < (7 + 1 / 10000000 : ℚ) ∧
      build_slots (7 + 1 / 10000000) 7 = [{ start := 0, stop := 7, texts := [] }] ∧
      (7 : ℚ) ≠ 7 + 1 / 10000000 := by
  refine ⟨by norm_num, ?_, by norm_num⟩
  have hfuel : (⌈((7 : ℚ) + 1 / 10000000) / 7⌉).toNat + 1 = 3 := by
    have hc : ⌈((7 : ℚ) + 1 / 10000000) / 7⌉ = 2 := by
      rw [Int.ceil_eq_iff]
      norm_num
    rw [hc]
    rfl
  simp only [build_slots, hfuel]
  norm_num [buildSlotsAux, eps, min_def]

/-- C3 (amended): for every `totalDuration` exceeding the loop's `1e-6`
epsilon and every `slotLength > 0`, the built slots are non-empty,
contiguous (each slot's end is the next slot's start), non-overlapping
(each slot has positive length), the first starts at 0, every slot except
the last has length exactly `slotLength`, and the last slot's end lies
within `1e-6` of `totalDuration` (it equals `totalDuration` only when the
final nominal boundary does not land inside the `(totalDuration - 1e-6,
totalDuration)` window; exact equality as claimed is refuted by the
counterexample). -/
theorem claim_C3_slot_coverage (dur slot : ℚ) (hslot : 0 < slot) (hdur : eps < dur) :
    build_slots dur slot ≠ [] ∧
    (∀ s, (build_slots dur slot).get? 0 = some s → s.start = 0) ∧
    List.Chain' (fun a b => a.stop = b.start) (build_slots dur slot) ∧
    (∀ s ∈ build_slots dur slot, s.start < s.stop ∧ s.stop ≤ dur) ∧
    (∀ i s s', (build_slots dur slot).get? i = some s →
      (build_slots dur slot).get? (i + 1) = some s' →
      s.stop = s.start + slot ∧ s.stop = s'.start) ∧
    (∀ s, (build_slots dur slot).getLast? = some s →
      dur - eps ≤ s.stop ∧ s.stop ≤ dur) := by
  have hmem_char : ∀ s ∈ build_slots dur slot, ∃ i,
      (build_slots dur slot).get? i = some s := by
    intro s hs
    rcases List.get_of_mem hs with ⟨n, hn⟩
    exact ⟨n.1, by rw [List.get?_eq_get n.2, hn]⟩
  have hstart_lt : ∀ s ∈ build_slots dur slot, s.start < dur - eps := by
    intro s hs
    rw [build_slots_fuel] at hs
    exact buildSlotsAux_start_lt dur slot _ 0 s hs
  have hnotlast : ∀ i s s', (build_slots dur slot).get? i = some s →
      (build_slots dur slot).get? (i + 1) = some s' →
      s.stop = s.start + slot ∧ s.stop = s'.start := by
    intro i s s' hi hi'
    rcases build_slots_get? dur slot hslot i s hi with ⟨ha, hb⟩
    rcases build_slots_get? dur slot hslot (i + 1) s' hi' with ⟨ha', _⟩
    have hmem' : s' ∈ build_slots dur slot := List.get?_mem hi'
    have hlt : ((i : ℚ) + 1) * slot < dur := by
      have h1 := hstart_lt s' hmem'
      rw [ha'] at h1
      have heps : (0 : ℚ) < eps := by norm_num [eps]
      push_cast at h1 ⊢
      linarith
    constructor
    · rw [hb, ha, min_eq_left (le_of_lt hlt)]
      ring
    · rw [hb, ha', min_eq_left (le_of_lt hlt)]
      push_cast
      ring
  refine ⟨(build_slots_ne_nil_iff dur slot).2 hdur, ?_, ?_, ?_, hnotlast, ?_⟩
  · intro s h0
    rcases build_slots_get? dur slot hslot 0 s h0 with ⟨ha, _⟩
    simpa using ha
  · rw [List.chain'_iff_get]
    intro i hi
    have hg1 : (build_slots dur slot).get? i
        = some ((build_slots dur slot).get ⟨i, by omega⟩) := List.get?_eq_get _
    have hg2 : (build_slots dur slot).get? (i + 1)
        = some ((build_slots dur slot).get ⟨i + 1, by omega⟩) := List.get?_eq_get _
    exact (hnotlast i _ _ hg1 hg2).2
  · intro s hs
    rcases hmem_char s hs with ⟨i, hi⟩
    rcases build_slots_get? dur slot hslot i s hi with ⟨ha, hb⟩
    constructor
    · rw [ha, hb]
      apply lt_min
      · push_cast
        nlinarith
      · have h1 := hstart_lt s hs
        rw [ha] at h1
        have heps : (0 : ℚ) < eps := by norm_num [eps]
        linarith
    · rw [hb]
      exact min_le_right _ _
  · intro s hlast
    have hmem : s ∈ build_slots dur slot := by
      rcases List.mem_getLast?_eq_getLast (Option.mem_def.2 hlast) with ⟨hne, heq⟩
      rw [heq]
      exact List.getLast_mem hne
    constructor
    · rw [build_slots_fuel] at hlast
      exact buildSlotsAux_last_stop dur slot _ 0 s le_rfl hslot hlast
    · rw [build_slots_fuel] at hmem
      exact buildSlotsAux_stop_le dur slot _ 0 s hmem

theorem claim_C3_slot_coverage_witness :
    ((0 : ℚ) < 7 ∧ eps < 15) ∧
      (build_slots 15 7 ≠ [] ∧
      (∀ s, (build_slots 15 7).get? 0 = some s → s.start = 0) ∧
      List.Chain' (fun a b => a.stop = b.start) (build_slots 15 7) ∧
      (∀ s ∈ build_slots 15 7, s.start < s.stop ∧ s.stop ≤ (15 : ℚ)) ∧
      (∀ i s s', (build_slots 15 7).get? i = some s →
        (build_slots 15 7).get? (i + 1) = some s' →
        s.stop = s.start + 7 ∧ s.stop = s'.start) ∧
      (∀ s, (build_slots 15 7).getLast? = some s →
        (15 : ℚ) - eps ≤ s.stop ∧ s.stop ≤ 15)) :=
  ⟨⟨by norm_num, by norm_num [eps]⟩,
    claim_C3_slot_coverage 15 7 (by norm_num) (by norm_num [eps])⟩

/-! ## Tokenization: splitting on whitespace and re-joining with spaces -/

theorem tokenizeAux_all_space (sp : List Char) (hs : ∀ c ∈ sp, isSpace c = true) :
    ∀ cur, tokenizeAux cur sp = if cur = [] then [] else [cur.reverse] := by
  induction sp with
  | nil => intro cur; rfl
  | cons c sp' ih =>
    intro cur
    have hc : isSpace c = true := hs c (List.mem_cons_self c sp')
    have hs' : ∀ x ∈ sp', isSpace x = true := fun x hx => hs x (List.mem_cons_of_mem c hx)
    simp only [tokenizeAux, hc, if_true]
    by_cases hcur : cur = []
    · simp only [hcur, if_pos rfl, reduceIte]
      rw [ih hs' []]
      rfl
    · simp only [if_neg hcur, hcur, reduceIte]
      rw [ih hs' []]
      rfl

theorem tokenizeAux_append_space (a sp : List Char) (hs : ∀ c ∈ sp, isSpace c = true) :
    ∀ cur, tokenizeAux cur (a ++ sp) = tokenizeAux cur a := by
  induction a with
  | nil =>
    intro cur
    rw [List.nil_append, tokenizeAux_all_space sp hs cur]
    rfl
  | cons c a' ih =>
    intro cur
    simp only [List.cons_append, tokenizeAux]
    split
    · split
      · exact ih _
      · exact congrArg (List.cons cur.reverse) (ih [])
    · exact ih _

theorem tokenizeAux_dropWhile (l : List Char) :
    tokenizeAux [] (l.dropWhile isSpace) = tokenizeAux [] l := by
  induction l with
  | nil => rfl
  | cons c l' ih =>
    by_cases hc : isSpace c
    · rw [List.dropWhile_cons_of_pos hc]
      rw [ih]
      simp only [tokenizeAux, hc, if_true, reduceIte]
    · rw [List.dropWhile_cons_of_neg hc]

theorem tokenizeAux_pyStrip (l : List Char) :
    tokenizeAux [] (pyStrip l) = tokenizeAux [] l := by
  unfold pyStrip
  rw [← tokenizeAux_dropWhile l]
  set d := l.dropWhile isSpace with hd
  have hsplit : d = (d.reverse.dropWhile isSpace).reverse
      ++ (d.reverse.takeWhile isSpace).reverse := by
    have h := List.takeWhile_append_dropWhile isSpace d.reverse
    calc d = d.reverse.reverse := (List.reverse_reverse d).symm
      _ = (d.reverse.takeWhile isSpace ++ d.reverse.dropWhile isSpace).reverse := by rw [h]
      _ = _ := by rw [List.reverse_append]
  have hsp : ∀ c ∈ (d.reverse.takeWhile isSpace).reverse, isSpace c = true := by
    intro c hc
    rw [List.mem_reverse] at hc
    exact List.mem_takeWhile_imp hc
  conv_rhs => rw [hsplit]
  rw [tokenizeAux_append_space _ _ hsp]

theorem tokenizeAux_ne_nil_of_cur (l : List Char) :
    ∀ cur, cur ≠ [] → tokenizeAux cur l ≠ [] := by
  induction l with
  | nil =>
    intro cur hcur
    simp [tokenizeAux, hcur]
  | cons c l' ih =>
    intro cur hcur
    simp only [tokenizeAux]
    split
    · simp
    · exact ih _ (by simp)

theorem tokenizeAux_single (t : List Char) (ht : ∀ c ∈ t, ¬ isSpace c) :
    ∀ cur, cur ≠ [] ∨ t ≠ [] → tokenizeAux cur t = [cur.reverse ++ t] := by
  induction t with
  | nil =>
    intro cur hc
    rcases hc with hc | hc
    · simp [tokenizeAux, hc]
    · exact absurd rfl hc
  | cons c t' ih =>
    intro cur _
    have hc : ¬ isSpace c := ht c (List.mem_cons_self c t')
    simp only [tokenizeAux, hc, if_neg, Bool.false_eq_true, reduceIte]
    rw [ih (fun x hx => ht x (List.mem_cons_of_mem c hx)) (c :: cur) (Or.inl (by simp))]
    simp

theorem tokenizeAux_split (b : List Char) : ∀ (a : List Char) (cur : List Char),
    tokenizeAux cur (a ++ ' ' :: b) = tokenizeAux cur a ++ tokenizeAux [] b := by
  intro a
  induction a with
  | nil =>
    intro cur
    have hsp : isSpace ' ' = true := by decide
    simp only [List.nil_append, tokenizeAux, hsp, if_true, reduceIte]
    by_cases hcur : cur = []
    · simp [hcur, tokenizeAux]
    · simp [hcur, tokenizeAux]
  | cons c a' ih =>
    intro cur
    simp only [List.cons_append, tokenizeAux]
    split
    · split
      · exact ih _
      · simp only [List.cons_append]
        exact congrArg (List.cons cur.reverse) (ih [])
    · exact ih _

theorem intercalate_cons_of_ne_nil {α : Type} (s p : List α) (ps : List (List α))
    (h : ps ≠ []) :
    List.intercalate s (p :: ps) = p ++ s ++ List.intercalate s ps := by
  rcases ps with _ | ⟨q, ps'⟩
  · exact absurd rfl h
  · simp only [List.intercalate, List.intersperse_cons_cons, List.flatten_cons]
    simp [List.append_assoc]

theorem tokenizeAux_intercalate (parts : List (List Char)) :
    tokenizeAux [] (List.intercalate [' '] parts)
      = (parts.map (tokenizeAux [])).flatten := by
  induction parts with
  | nil => rfl
  | cons p ps ih =>
    rcases Classical.em (ps = []) with rfl | hne
    · simp [List.intercalate]
    · rw [intercalate_cons_of_ne_nil _ _ _ hne]
      rw [List.append_assoc, List.singleton_append]
      rw [tokenizeAux_split]
      rw [ih]
      simp

theorem string_mk_toList (s : String) : String.mk s.toList = s := rfl

/-- Tokenizing the space-join of any list of strings yields the
concatenation of the strings' token lists. -/
theorem word_tokenize_pyJoin (parts : List String) :
    word_tokenize (pyJoin (" ") parts) = (parts.map word_tokenize).flatten := by
  unfold word_tokenize pyJoin
  rw [tokenizeAux_pyStrip]
  have htl : (" " : String).toList = [' '] := rfl
  rw [htl]
  rw [show ∀ L : List Char, (String.mk L).toList = L from fun _ => rfl]
  rw [tokenizeAux_intercalate]
  induction parts with
  | nil => rfl
  | cons p ps ih =>
    simp only [List.map_cons, List.flatten_cons, List.map_append, ← ih]
    congr 1
    rw [tokenizeAux_pyStrip]

theorem tokenizeAux_tokens_ok (l : List Char) :
    ∀ cur, (∀ c ∈ cur, ¬ isSpace c) →
      ∀ tk ∈ tokenizeAux cur l, tk ≠ [] ∧ ∀ c ∈ tk, ¬ isSpace c := by
  induction l with
  | nil =>
    intro cur hcur tk htk
    simp only [tokenizeAux] at htk
    split at htk
    · simp at htk
    · rw [List.mem_singleton] at htk
      subst htk
      refine ⟨by simpa using (by assumption : ¬ cur = []), ?_⟩
      intro c hc
      exact hcur c (List.mem_reverse.1 hc)
  | cons c l' ih =>
    intro cur hcur tk htk
    simp only [tokenizeAux] at htk
    split at htk
    · split at htk
      · exact ih [] (by simp) tk htk
      · rcases List.mem_cons.1 htk with rfl | h'
        · refine ⟨by simpa using (by assumption : ¬ cur = []), ?_⟩
          intro x hx
          exact hcur x (List.mem_reverse.1 hx)
        · exact ih [] (by simp) tk h'
    · refine ih (c :: cur) ?_ tk htk
      intro x hx
      rcases List.mem_cons.1 hx with rfl | hx'
      · assumption
      · exact hcur x hx'

theorem word_tokenize_token_ok (s : String) :
    ∀ w ∈ word_tokenize s, w.toList ≠ [] ∧ ∀ c ∈ w.toList, ¬ isSpace c := by
  intro w hw
  unfold word_tokenize at hw
  rcases List.mem_map.1 hw with ⟨tk, htk, rfl⟩
  have h := tokenizeAux_tokens_ok (pyStrip s.toList) [] (by simp) tk htk
  simpa using h

/-- A string whose characters are non-empty and whitespace-free is its own
single token. -/
theorem word_tokenize_tokenlike (w : String) (hne : w.toList ≠ [])
    (hok : ∀ c ∈ w.toList, ¬ isSpace c) : word_tokenize w = [w] := by
  unfold word_tokenize
  rw [tokenizeAux_pyStrip]
  rw [tokenizeAux_single w.toList hok [] (Or.inr hne)]
  simp [string_mk_toList]

/-! ## Token bookkeeping for the slot assigner -/

/-- All tokens currently stored in the slots (re-tokenizing each stored
text entry), as a multiset. -/
def slotTokensM (slots : List Slot) : Multiset String :=
  ((slots.map (fun s => (s.texts.map word_tokenize).flatten)).flatten : List String)

/-- All tokens of the cleaned texts of a segment list, in order. -/
def segTokens (segs : List Seg) : List String :=
  (segs.map (fun s => word_tokenize (clean_text s.text))).flatten

/-- Tokens of the running state: slots plus the untimed-text buffer. -/
def stateTokensM (st : List Slot × List String) : Multiset String :=
  slotTokensM st.1 + ((st.2.map word_tokenize).flatten : List String)

theorem listModify_length {α : Type} (l : List α) (i : ℕ) (f : α → α) :
    (listModify l i f).length = l.length := by
  induction l generalizing i with
  | nil => rfl
  | cons a rest ih =>
    cases i with
    | zero => rfl
    | succ i => simp [listModify, ih]

theorem flatten_map_singleton {α : Type} (l : List α) :
    (l.map (fun x => [x])).flatten = l := by
  induction l with
  | nil => rfl
  | cons a rest ih => simp [ih]

theorem slotTokensM_cons (s : Slot) (rest : List Slot) :
    slotTokensM (s :: rest)
      = ((s.texts.map word_tokenize).flatten : List String) + slotTokensM rest := by
  simp [slotTokensM]

theorem slotTokensM_modify (slots : List Slot) (i : ℕ) (e : String)
    (hi : i < slots.length) :
    slotTokensM (listModify slots i (appendText e))
      = slotTokensM slots + (word_tokenize e : Multiset String) := by
  induction slots generalizing i with
  | nil => simp at hi
  | cons a rest ih =>
    cases i with
    | zero =>
      show slotTokensM (appendText e a :: rest) = _
      rw [slotTokensM_cons, slotTokensM_cons]
      simp only [appendText, List.map_append, List.flatten_append, List.map_cons,
        List.map_nil, List.flatten_cons, List.flatten_nil, List.append_nil,
        ← Multiset.coe_add]
      abel
    | succ i =>
      show slotTokensM (a :: listModify rest i (appendText e)) = _
      rw [slotTokensM_cons, slotTokensM_cons]
      rw [ih i (by simpa using hi)]
      abel

theorem applyChunks_tokens (ps : List (ℕ × List String)) : ∀ slots : List Slot,
    (∀ p ∈ ps, p.1 < slots.length) →
    (∀ p ∈ ps, ∀ w ∈ p.2, w.toList ≠ [] ∧ ∀ c ∈ w.toList, ¬ isSpace c) →
    slotTokensM (applyChunks slots ps)
      = slotTokensM slots + ((ps.map Prod.snd).flatten : List String) ∧
    (applyChunks slots ps).length = slots.length := by
  induction ps with
  | nil =>
    intro slots _ _
    constructor
    · simp [applyChunks]
    · rfl
  | cons p ps ih =>
    intro slots hbnd hok
    have hstep : applyChunks slots (p :: ps)
        = applyChunks (if p.2 = [] then slots
            else listModify slots p.1 (appendText (pyJoin (" ") p.2))) ps := by
      simp [applyChunks, List.foldl_cons]
    rw [hstep]
    by_cases hp2 : p.2 = []
    · rw [if_pos hp2]
      rcases ih slots (fun q hq => hbnd q (List.mem_cons_of_mem p hq))
        (fun q hq => hok q (List.mem_cons_of_mem p hq)) with ⟨h1, h2⟩
      refine ⟨?_, h2⟩
      rw [h1]
      simp [hp2]
    · rw [if_neg hp2]
      have hlen' : (listModify slots p.1 (appendText (pyJoin (" ") p.2))).length
          = slots.length := listModify_length _ _ _
      rcases ih (listModify slots p.1 (appendText (pyJoin (" ") p.2)))
        (fun q hq => by rw [hlen']; exact hbnd q (List.mem_cons_of_mem p hq))
        (fun q hq => hok q (List.mem_cons_of_mem p hq)) with ⟨h1, h2⟩
      refine ⟨?_, by rw [h2, hlen']⟩
      rw [h1]
      rw [slotTokensM_modify slots p.1 _ (hbnd p (List.mem_cons_self p ps))]
      have hj : word_tokenize (pyJoin (" ") p.2) = p.2 := by
        rw [word_tokenize_pyJoin]
        have hmap : p.2.map word_tokenize = p.2.map (fun w => [w]) := by
          apply List.map_congr_left
          intro w hw
          rcases hok p (List.mem_cons_self p ps) w hw with ⟨h1', h2'⟩
          exact word_tokenize_tokenlike w h1' h2'
        rw [hmap, flatten_map_singleton]
      rw [hj]
      simp only [List.map_cons, List.flatten_cons, ← Multiset.coe_add]
      abel

theorem clampIdx_lt (z : ℤ) (k : ℕ) (hk : 1 ≤ k) : clampIdx z k < k := by
  simp only [clampIdx]
  omega

theorem clampIdx_mono (z z' : ℤ) (k : ℕ) (h : z ≤ z') : clampIdx z k ≤ clampIdx z' k := by
  simp only [clampIdx]
  omega

theorem clampIdx_eq_last (z : ℤ) (k : ℕ) (hk : 1 ≤ k) (hz : (k : ℤ) - 1 ≤ z) :
    clampIdx z k = k - 1 := by
  simp only [clampIdx]
  omega

theorem build_slots_last_start (dur slot : ℚ) (hslot : 0 < slot)
    (hk : 1 ≤ (build_slots dur slot).length) :
    (((build_slots dur slot).length : ℚ) - 1) * slot < dur - eps := by
  have hlt : (build_slots dur slot).length - 1 < (build_slots dur slot).length := by omega
  set s := (build_slots dur slot).get ⟨(build_slots dur slot).length - 1, hlt⟩ with hs
  have hget : (build_slots dur slot).get? ((build_slots dur slot).length - 1) = some s :=
    List.get?_eq_get hlt
  have hchar := build_slots_get? dur slot hslot _ s hget
  have hmem : s ∈ build_slots dur slot := List.get?_mem hget
  have hstart : s.start < dur - eps := by
    rw [build_slots_fuel] at hmem
    exact buildSlotsAux_start_lt dur slot _ 0 s hmem
  rw [hchar.1] at hstart
  have hcast : (((build_slots dur slot).length - 1 : ℕ) : ℚ)
      = ((build_slots dur slot).length : ℚ) - 1 := by
    push_cast [Nat.cast_sub hk]
    ring
  rw [hcast] at hstart
  exact hstart

theorem word_tokenize_empty : word_tokenize ("") = [] := rfl

theorem stateTokensM_buffer (slots : List Slot) (buf : List String) (t : String) :
    stateTokensM (slots, buf ++ [t])
      = stateTokensM (slots, buf) + (word_tokenize t : Multiset String) := by
  simp only [stateTokensM, List.map_append, List.flatten_append, List.map_cons,
    List.map_nil, List.flatten_cons, List.flatten_nil, List.append_nil,
    ← Multiset.coe_add]
  abel

theorem processSeg_tokens (dur slot pad : ℚ) (slots : List Slot) (buf : List String)
    (seg : Seg) (hslot : 0 < slot) (hpad : eps ≤ pad)
    (hk : 1 ≤ slots.length)
    (hlast : ((slots.length : ℚ) - 1) * slot < dur - eps) :
    stateTokensM (processSeg dur slot pad (slots, buf) seg)
      = stateTokensM (slots, buf) + (word_tokenize (clean_text seg.text) : Multiset String) ∧
    (processSeg dur slot pad (slots, buf) seg).1.length = slots.length := by
  obtain ⟨ts, txt⟩ := seg
  have huntimed := stateTokensM_buffer slots buf (clean_text txt)
  by_cases hct : clean_text txt = ""
  · simp only [processSeg]
    rw [if_pos hct]
    refine ⟨?_, rfl⟩
    rw [hct, word_tokenize_empty]
    simp
  · rcases ts with _ | ⟨ts0, ts1⟩
    · simp only [processSeg]
      rw [if_neg hct]
      exact ⟨huntimed, rfl⟩
    rcases ts0 with _ | s0
    · rcases ts1 with _ | s1
      · simp only [processSeg]
        rw [if_neg hct]
        exact ⟨huntimed, rfl⟩
      · simp only [processSeg]
        rw [if_neg hct]
        exact ⟨huntimed, rfl⟩
    rcases ts1 with _ | s1
    · simp only [processSeg]
      rw [if_neg hct]
      exact ⟨huntimed, rfl⟩
    simp only [processSeg]
    rw [if_neg hct]
    by_cases hs01 : s1 ≤ s0
    · rw [if_pos hs01]
      exact ⟨huntimed, rfl⟩
    · rw [if_neg hs01]
      have heps : (0 : ℚ) < eps := by norm_num [eps]
      set s1p := min (s1 + pad) dur with hs1p
      set i0 := clampIdx ⌊max 0 s0 / slot⌋ slots.length with hi0
      set i1 := clampIdx ⌊max 0 (s1p - eps) / slot⌋ slots.length with hi1
      set idxs := List.range' i0 (i1 + 1 - i0) with hidxs
      set ovs := idxs.map (fun i =>
        max 0 (min s1p (slots.getD i default).stop
          - max s0 (slots.getD i default).start)) with hovs
      set ws := word_tokenize (clean_text txt) with hws
      set chunks := allocate_words_by_overlaps ws ovs with hchunks
      have hi0lt : i0 < slots.length := clampIdx_lt _ _ hk
      have hi1lt : i1 < slots.length := clampIdx_lt _ _ hk
      have hi01 : i0 ≤ i1 := by
        rcases le_or_lt (s1 + pad) dur with hc | hc
        · have hmin : s1p = s1 + pad := min_eq_left hc
          rw [hi0, hi1, hmin]
          apply clampIdx_mono
          apply Int.floor_le_floor
          have hmx : max 0 s0 ≤ max 0 (s1 + pad - eps) := by
            apply max_le_max le_rfl
            linarith
          gcongr
        · have hmin : s1p = dur := min_eq_right (le_of_lt hc)
          have hknn : (0 : ℚ) ≤ ((slots.length : ℚ) - 1) * slot := by
            apply mul_nonneg _ (le_of_lt hslot)
            have : (1 : ℚ) ≤ (slots.length : ℚ) := by exact_mod_cast hk
            linarith
          have hdeps : (0 : ℚ) < dur - eps := lt_of_le_of_lt hknn hlast
          have hz1 : ((slots.length : ℤ) - 1) ≤ ⌊max 0 (s1p - eps) / slot⌋ := by
            rw [hmin]
            rw [max_eq_right (le_of_lt hdeps)]
            rw [Int.le_floor]
            rw [le_div_iff hslot]
            push_cast
            linarith
          have h1eq : i1 = slots.length - 1 := by
            rw [hi1]
            exact clampIdx_eq_last _ _ hk hz1
          omega
      have hidxlen : idxs.length = i1 + 1 - i0 := List.length_range' _ _ _
      have hovsne : ovs ≠ [] := by
        rw [hovs]
        simp only [ne_eq, List.map_eq_nil_iff]
        rw [hidxs]
        intro hcon
        have := congrArg List.length hcon
        rw [hidxlen] at this
        simp at this
        omega
      have hbnd : ∀ p ∈ idxs.zip chunks, p.1 < slots.length := by
        rintro ⟨a, b⟩ hp
        have hmem := (List.of_mem_zip hp).1
        rw [hidxs, List.mem_range'] at hmem
        rcases hmem with ⟨j, hj, rfl⟩
        omega
      have hok : ∀ p ∈ idxs.zip chunks, ∀ w ∈ p.2,
          w.toList ≠ [] ∧ ∀ c ∈ w.toList, ¬ isSpace c := by
        rintro ⟨a, b⟩ hp w hw
        have hmem := (List.of_mem_zip hp).2
        have hwmem : w ∈ ws := allocate_mem ws ovs b hmem w hw
        exact word_tokenize_token_ok (clean_text txt) w hwmem
      have happ := applyChunks_tokens (idxs.zip chunks) slots hbnd hok
      refine ⟨?_, happ.2⟩
      have hsnd : (idxs.zip chunks).map Prod.snd = chunks := by
        apply List.map_snd_zip
        rw [hchunks, allocate_length, hovs, List.length_map]
      have hflat : chunks.flatten = ws := allocate_flatten ws ovs hovsne
      show stateTokensM (applyChunks slots (idxs.zip chunks), buf) = _
      simp only [stateTokensM]
      rw [happ.1, hsnd, hflat]
      abel

theorem foldl_processSeg_tokens (dur slot pad : ℚ) (segs : List Seg)
    (hslot : 0 < slot) (hpad : eps ≤ pad) :
    ∀ slots buf, 1 ≤ slots.length →
    ((slots.length : ℚ) - 1) * slot < dur - eps →
    stateTokensM (segs.foldl (processSeg dur slot pad) (slots, buf))
      = stateTokensM (slots, buf) + (segTokens segs : Multiset String) ∧
    (segs.foldl (processSeg dur slot pad) (slots, buf)).1.length = slots.length := by
  induction segs with
  | nil =>
    intro slots buf _ _
    constructor
    · simp [segTokens]
    · rfl
  | cons sg rest ih =>
    intro slots buf hk hlast
    have hps := processSeg_tokens dur slot pad slots buf sg hslot hpad hk hlast
    simp only [List.foldl_cons]
    have hpair : processSeg dur slot pad (slots, buf) sg
        = ((processSeg dur slot pad (slots, buf) sg).1,
           (processSeg dur slot pad (slots, buf) sg).2) := rfl
    rw [hpair]
    have hk' : 1 ≤ (processSeg dur slot pad (slots, buf) sg).1.length := by
      rw [hps.2]; exact hk
    have hlast' : (((processSeg dur slot pad (slots, buf) sg).1.length : ℚ) - 1) * slot
        < dur - eps := by
      rw [hps.2]; exact hlast
    rcases ih (processSeg dur slot pad (slots, buf) sg).1
      (processSeg dur slot pad (slots, buf) sg).2 hk' hlast' with ⟨h1, h2⟩
    constructor
    · rw [h1]
      rw [show ((processSeg dur slot pad (slots, buf) sg).1,
          (processSeg dur slot pad (slots, buf) sg).2)
            = processSeg dur slot pad (slots, buf) sg from rfl]
      rw [hps.1]
      simp only [segTokens, List.map_cons, List.flatten_cons, ← Multiset.coe_add]
      abel
    · rw [h2, hps.2]

theorem slotTokensM_empty_texts (slots : List Slot)
    (h : ∀ s ∈ slots, s.texts = []) : slotTokensM slots = 0 := by
  induction slots with
  | nil => rfl
  | cons a rest ih =>
    rw [slotTokensM_cons]
    rw [h a (List.mem_cons_self a rest)]
    rw [ih (fun s hs => h s (List.mem_cons_of_mem a hs))]
    simp

/-- C1 (counterexample to the claim as stated): the claim quantifies over
all `totalDuration > 0`, but for `totalDuration = 1e-7` (which is below the
slot builder's `1e-6` epsilon) no slot is built, the segment loop is never
entered, and every word of every fragment is dropped. -/
theorem claim_C1_counterexample :
    build_srt_slots_from_segments [⟨some (some 0, some 1), "hi"⟩]
        (1 / 10000000) 7 (7 / 20) = [] ∧
      (0 : ℚ) < 1 / 10000000 ∧
      segTokens [⟨some (some 0, some 1), "hi"⟩] = ["hi"] := by
  refine ⟨?_, by norm_num, ?_⟩
  · have hnil : build_slots (1 / 10000000) 7 = [] := by
      have h := (build_slots_ne_nil_iff (1 / 10000000) 7)
      by_contra hcon
      have := h.1 hcon
      rw [eps] at this
      norm_num at this
    simp only [build_srt_slots_from_segments]
    rw [hnil]
    simp
  · rfl

/-- C1 (amended): whenever at least one slot is built (`totalDuration`
exceeds the builder's `1e-6` epsilon), the slot length is positive and the
end padding is at least `1e-6`, the multiset of words stored over all slots
after assignment equals the multiset of words of all fragments' cleaned
texts: every word lands in exactly one slot, none lost, none duplicated. -/
theorem claim_C1_end_to_end_no_loss (segs : List Seg) (dur slot pad : ℚ)
    (hslot : 0 < slot) (hdur : eps < dur) (hpad : eps ≤ pad) :
    slotTokensM (build_srt_slots_from_segments segs dur slot pad)
      = (segTokens segs : Multiset String) := by
  have hne := (build_slots_ne_nil_iff dur slot).2 hdur
  simp only [build_srt_slots_from_segments]
  rw [if_neg hne]
  have hk : 1 ≤ (build_slots dur slot).length := List.length_pos.2 hne
  have hlast := build_slots_last_start dur slot hslot hk
  have hfold := foldl_processSeg_tokens dur slot pad segs hslot hpad
    (build_slots dur slot) [] hk hlast
  have hinit : stateTokensM (build_slots dur slot, []) = 0 := by
    simp only [stateTokensM]
    rw [slotTokensM_empty_texts]
    · simp
    · intro s hs
      rw [build_slots_fuel] at hs
      exact buildSlotsAux_texts dur slot _ 0 s hs
  rcases hfold with ⟨h1, h2⟩
  rw [hinit, zero_add] at h1
  by_cases hbuf : (segs.foldl (processSeg dur slot pad) (build_slots dur slot, [])).2 = []
  · rw [if_pos hbuf]
    have : stateTokensM (segs.foldl (processSeg dur slot pad) (build_slots dur slot, []))
        = slotTokensM (segs.foldl (processSeg dur slot pad) (build_slots dur slot, [])).1 := by
      simp [stateTokensM, hbuf]
    rw [← this, h1]
  · rw [if_neg hbuf]
    rw [slotTokensM_modify _ _ _ (by omega)]
    rw [word_tokenize_pyJoin]
    rw [← h1]
    simp only [stateTokensM]

theorem claim_C1_end_to_end_no_loss_witness :
    ((0 : ℚ) < 7 ∧ eps < 15 ∧ eps ≤ 7 / 20) ∧
      slotTokensM (build_srt_slots_from_segments
          [⟨some (some 6, some (17 / 2)), "hello world foo"⟩] 15 7 (7 / 20))
        = (segTokens [⟨some (some 6, some (17 / 2)), "hello world foo"⟩] : Multiset String) :=
  ⟨⟨by norm_num, by norm_num [eps], by norm_num [eps]⟩,
    claim_C1_end_to_end_no_loss _ 15 7 (7 / 20) (by norm_num) (by norm_num [eps])
      (by norm_num [eps])⟩

/-! ## Heads of stripped and cleaned strings -/

theorem dropWhile_head_not (l : List Char) :
    ∀ c, ((l.dropWhile isSpace).head? = some c) → ¬ isSpace c := by
  induction l with
  | nil => intro c h; simp at h
  | cons a rest ih =>
    intro c h
    by_cases ha : isSpace a
    · rw [List.dropWhile_cons_of_pos ha] at h
      exact ih c h
    · rw [List.dropWhile_cons_of_neg ha] at h
      simp only [List.head?_cons, Option.some_inj] at h
      exact h ▸ ha

theorem pyStrip_head_not_space (l : List Char) (c : Char) (r : List Char)
    (h : pyStrip l = c :: r) : ¬ isSpace c := by
  set d := l.dropWhile isSpace with hd
  set y := d.reverse.dropWhile isSpace with hy
  have hpy : pyStrip l = y.reverse := rfl
  rw [hpy] at h
  have hyne : y ≠ [] := by
    intro hcon
    rw [hcon] at h
    simp at h
  have hylast : y.getLast? = some c := by
    rw [← List.head?_reverse, h]
    rfl
  have hsplit : d.reverse = d.reverse.takeWhile isSpace ++ y :=
    (List.takeWhile_append_dropWhile isSpace d.reverse).symm
  have hdlast : d.reverse.getLast? = some c := by
    rw [hsplit, List.getLast?_append_of_ne_nil _ hyne]
    exact hylast
  have hdhead : d.head? = some c := by
    rw [← List.getLast?_reverse]
    exact hdlast
  exact dropWhile_head_not l c hdhead

theorem collapseAux_cons_nonspace (c : Char) (r : List Char) (hc : ¬ isSpace c) :
    collapseAux false (c :: r) = c :: collapseAux false r := by
  simp [collapseAux, hc]

theorem punctAux_cons_nonspace (c : Char) (r : List Char) (hc : ¬ isSpace c) :
    punctAux [] (c :: r) = c :: punctAux [] r := by
  simp [punctAux, hc]

theorem cleanChars_head_not_space (l : List Char) :
    cleanChars l = [] ∨ ∃ c r, cleanChars l = c :: r ∧ ¬ isSpace c := by
  unfold cleanChars
  rcases hstrip : pyStrip l with _ | ⟨c, r⟩
  · left
    rfl
  · right
    have hc : ¬ isSpace c := pyStrip_head_not_space l c r hstrip
    rw [collapseAux_cons_nonspace c r hc, punctAux_cons_nonspace c _ hc]
    exact ⟨c, _, rfl, hc⟩

theorem word_tokenize_clean_ne_nil (s : String) (h : clean_text s ≠ "") :
    word_tokenize (clean_text s) ≠ [] := by
  rcases cleanChars_head_not_space s.toList with hnil | ⟨c, r, heq, hc⟩
  · exfalso
    apply h
    show String.mk (cleanChars s.toList) = ""
    rw [hnil]
  · unfold word_tokenize
    rw [tokenizeAux_pyStrip]
    rw [show (clean_text s).toList = cleanChars s.toList from rfl, heq]
    intro hcon
    rw [List.map_eq_nil_iff] at hcon
    have hred : tokenizeAux [] (c :: r) = tokenizeAux [c] r := by
      simp [tokenizeAux, hc]
    rw [hred] at hcon
    exact tokenizeAux_ne_nil_of_cur r [c] (by simp) hcon

/-! ## Claim C5: untimed fragments only influence the last slot -/

/-- A fragment that (after cleaning) is non-empty and is classified as
untimed by the assigner: missing timestamp, missing endpoint, or an end
time not exceeding the start time. -/
def isUntimedKept (seg : Seg) : Bool :=
  decide (clean_text seg.text ≠ "") &&
    (match seg.timestamp with
     | none => true
     | some (none, _) => true
     | some (_, none) => true
     | some (some s0, some s1) => decide (s1 ≤ s0))

/-- The effect of one fragment on the slot list alone (the buffer does not
influence it). -/
def slotsStep (dur slot pad : ℚ) (slots : List Slot) (seg : Seg) : List Slot :=
  (processSeg dur slot pad (slots, []) seg).1

theorem processSeg_split (dur slot pad : ℚ) (slots : List Slot) (buf : List String)
    (seg : Seg) :
    processSeg dur slot pad (slots, buf) seg
      = (slotsStep dur slot pad slots seg,
         if isUntimedKept seg then buf ++ [clean_text seg.text] else buf) := by
  obtain ⟨ts, txt⟩ := seg
  by_cases hct : clean_text txt = ""
  · have hkept : isUntimedKept ⟨ts, txt⟩ = false := by
      simp [isUntimedKept, hct]
    simp only [processSeg, slotsStep, hkept, if_pos hct, Bool.false_eq_true, reduceIte]
  · rcases ts with _ | ⟨ts0, ts1⟩
    · have hkept : isUntimedKept ⟨none, txt⟩ = true := by
        simp [isUntimedKept, hct]
      simp only [processSeg, slotsStep, hkept, if_neg hct, reduceIte]
    rcases ts0 with _ | s0
    · have hkept : isUntimedKept ⟨some (none, ts1), txt⟩ = true := by
        simp [isUntimedKept, hct]
      rcases ts1 with _ | s1
      · simp only [processSeg, slotsStep, hkept, if_neg hct, reduceIte]
      · simp only [processSeg, slotsStep, hkept, if_neg hct, reduceIte]
    rcases ts1 with _ | s1
    · have hkept : isUntimedKept ⟨some (some s0, none), txt⟩ = true := by
        simp [isUntimedKept, hct]
      simp only [processSeg, slotsStep, hkept, if_neg hct, reduceIte]
    by_cases hs01 : s1 ≤ s0
    · have hkept : isUntimedKept ⟨some (some s0, some s1), txt⟩ = true := by
        simp [isUntimedKept, hct, hs01]
      simp only [processSeg, slotsStep, hkept, if_neg hct, if_pos hs01, reduceIte]
    · have hkept : isUntimedKept ⟨some (some s0, some s1), txt⟩ = false := by
        simp [isUntimedKept, hct, hs01]
      simp only [processSeg, slotsStep, hkept, if_neg hct, if_neg hs01,
        Bool.false_eq_true, reduceIte]

theorem slotsStep_untimed (dur slot pad : ℚ) (slots : List Slot) (seg : Seg)
    (h : isUntimedKept seg = true) : slotsStep dur slot pad slots seg = slots := by
  have hsplit := processSeg_split dur slot pad slots [] seg
  obtain ⟨ts, txt⟩ := seg
  simp only [isUntimedKept, Bool.and_eq_true, decide_eq_true_eq] at h
  rcases h with ⟨hct, hmatch⟩
  rcases ts with _ | ⟨ts0, ts1⟩
  · simp only [slotsStep, processSeg, if_neg hct]
  rcases ts0 with _ | s0
  · rcases ts1 with _ | s1
    · simp only [slotsStep, processSeg, if_neg hct]
    · simp only [slotsStep, processSeg, if_neg hct]
  rcases ts1 with _ | s1
  · simp only [slotsStep, processSeg, if_neg hct]
  · have hs01 : s1 ≤ s0 := by simpa using hmatch
    simp only [slotsStep, processSeg, if_neg hct, if_pos hs01]

theorem foldl_processSeg_split (dur slot pad : ℚ) (segs : List Seg) :
    ∀ slots buf,
    segs.foldl (processSeg dur slot pad) (slots, buf)
      = (segs.foldl (slotsStep dur slot pad) slots,
         buf ++ (segs.filter isUntimedKept).map (fun s => clean_text s.text)) := by
  induction segs with
  | nil => intro slots buf; simp
  | cons sg rest ih =>
    intro slots buf
    simp only [List.foldl_cons]
    rw [processSeg_split]
    rw [ih]
    by_cases hkept : isUntimedKept sg = true
    · rw [if_pos hkept]
      rw [List.filter_cons_of_pos hkept]
      simp [List.append_assoc]
    · rw [if_neg hkept]
      rw [List.filter_cons_of_neg (by simpa using hkept)]

theorem foldl_slotsStep_filter (dur slot pad : ℚ) (segs : List Seg) :
    ∀ slots,
    segs.foldl (slotsStep dur slot pad) slots
      = (segs.filter (fun s => ! isUntimedKept s)).foldl (slotsStep dur slot pad) slots := by
  induction segs with
  | nil => intro slots; rfl
  | cons sg rest ih =>
    intro slots
    simp only [List.foldl_cons]
    by_cases hkept : isUntimedKept sg = true
    · rw [List.filter_cons_of_neg (by simp [hkept])]
      rw [slotsStep_untimed dur slot pad slots sg hkept]
      exact ih slots
    · rw [List.filter_cons_of_pos (by simp [hkept])]
      simp only [List.foldl_cons]
      exact ih _

/-- C5: a fragment classified as untimed (absent or non-increasing
timestamps) never changes any slot except the last: the full run equals the
run on the timed-only fragments, with — when at least one untimed fragment
had non-empty cleaned text — exactly one extra entry, the space-join of all
such fragments' cleaned texts in arrival order, appended to the last slot's
`texts`. -/
theorem claim_C5_untimed_tail (segs : List Seg) (dur slot pad : ℚ)
    (h : build_slots dur slot ≠ []) :
    build_srt_slots_from_segments segs dur slot pad
      = (if (segs.filter isUntimedKept).map (fun s => clean_text s.text) = [] then
          build_srt_slots_from_segments
            (segs.filter (fun s => ! isUntimedKept s)) dur slot pad
        else
          listModify
            (build_srt_slots_from_segments
              (segs.filter (fun s => ! isUntimedKept s)) dur slot pad)
            ((build_srt_slots_from_segments
              (segs.filter (fun s => ! isUntimedKept s)) dur slot pad).length - 1)
            (appendText (pyJoin (" ")
              ((segs.filter isUntimedKept).map (fun s => clean_text s.text))))) := by
  have hfiltered : build_srt_slots_from_segments
      (segs.filter (fun s => ! isUntimedKept s)) dur slot pad
        = segs.foldl (slotsStep dur slot pad) (build_slots dur slot) := by
    simp only [build_srt_slots_from_segments]
    rw [if_neg h]
    rw [foldl_processSeg_split]
    have hff : (segs.filter (fun s => ! isUntimedKept s)).filter isUntimedKept = [] := by
      rw [List.filter_filter]
      apply List.filter_eq_nil_iff.2
      intro a _
      simp [Bool.and_comm]
    rw [hff]
    simp only [List.map_nil, List.nil_append, if_true]
    exact (foldl_slotsStep_filter dur slot pad segs (build_slots dur slot)).symm
  have hmain : build_srt_slots_from_segments segs dur slot pad
      = (if (segs.filter isUntimedKept).map (fun s => clean_text s.text) = [] then
          segs.foldl (slotsStep dur slot pad) (build_slots dur slot)
        else
          listModify (segs.foldl (slotsStep dur slot pad) (build_slots dur slot))
            ((segs.foldl (slotsStep dur slot pad) (build_slots dur slot)).length - 1)
            (appendText (pyJoin (" ")
              ((segs.filter isUntimedKept).map (fun s => clean_text s.text))))) := by
    simp only [build_srt_slots_from_segments]
    rw [if_neg h, foldl_processSeg_split]
    simp only [List.nil_append]
  rw [hmain, hfiltered]

theorem claim_C5_untimed_tail_witness :
    build_slots 15 7 ≠ [] ∧
      build_srt_slots_from_segments [⟨none, "tail"⟩] 15 7 (7 / 20)
        = (if (([⟨none, "tail"⟩] : List Seg).filter isUntimedKept).map
              (fun s => clean_text s.text) = [] then
            build_srt_slots_from_segments
              (([⟨none, "tail"⟩] : List Seg).filter (fun s => ! isUntimedKept s)) 15 7 (7 / 20)
          else
            listModify
              (build_srt_slots_from_segments
                (([⟨none, "tail"⟩] : List Seg).filter (fun s => ! isUntimedKept s)) 15 7 (7 / 20))
              ((build_srt_slots_from_segments
                (([⟨none, "tail"⟩] : List Seg).filter (fun s => ! isUntimedKept s)) 15 7
                  (7 / 20)).length - 1)
              (appendText (pyJoin (" ")
                ((([⟨none, "tail"⟩] : List Seg).filter isUntimedKept).map
                  (fun s => clean_text s.text))))) :=
  have hne : build_slots 15 7 ≠ [] :=
    (build_slots_ne_nil_iff 15 7).2 (by norm_num [eps])
  ⟨hne, claim_C5_untimed_tail [⟨none, "tail"⟩] 15 7 (7 / 20) hne⟩

/-! ## Claim C10: out-of-range timed fragments are clamped to the last slot -/

/-- C10: with at least one slot built, a timed fragment (`end > start`,
non-empty cleaned text) whose start lies at or beyond `totalDuration` has
both its candidate indices clamped to the last slot; its overlap weight is
0, so the zero-sum fallback of the allocator puts every token in that
single candidate chunk, and the whole text is appended to the last slot —
the fragment is neither rejected nor dropped.  `slots0` is any slot state
whose windows are those built by `build_slots` (its `texts` may already
hold entries from earlier fragments). -/
theorem claim_C10_out_of_range_clamped (dur slot pad s0 s1 : ℚ) (txt : String)
    (slots0 : List Slot) (buf : List String)
    (hslot : 0 < slot) (hpad : 0 ≤ pad)
    (hwin : slots0.map (fun s => (s.start, s.stop))
      = (build_slots dur slot).map (fun s => (s.start, s.stop)))
    (hne : build_slots dur slot ≠ [])
    (hclean : clean_text txt ≠ "")
    (hs0 : dur ≤ s0) (hs01 : s0 < s1) :
    processSeg dur slot pad (slots0, buf) ⟨some (some s0, some s1), txt⟩
      = (listModify slots0 (slots0.length - 1)
          (appendText (pyJoin (" ") (word_tokenize (clean_text txt)))), buf) := by
  have hlen : slots0.length = (build_slots dur slot).length := by
    have h := congrArg List.length hwin
    simpa using h
  have hk : 1 ≤ slots0.length := by
    rw [hlen]
    exact List.length_pos.2 hne
  have hlast : ((slots0.length : ℚ) - 1) * slot < dur - eps := by
    rw [hlen]
    exact build_slots_last_start dur slot hslot (by rw [← hlen]; exact hk)
  have heps : (0 : ℚ) < eps := by norm_num [eps]
  have hkq : (1 : ℚ) ≤ (slots0.length : ℚ) := by exact_mod_cast hk
  have hdeps : (0 : ℚ) < dur - eps := by nlinarith
  have hdurpos : (0 : ℚ) < dur := by linarith
  have hs0pos : (0 : ℚ) ≤ s0 := le_trans (le_of_lt hdurpos) hs0
  simp only [processSeg]
  rw [if_neg hclean, if_neg (not_le.2 hs01)]
  have hs1p : min (s1 + pad) dur = dur := min_eq_right (by linarith)
  rw [hs1p]
  have hz0 : ((slots0.length : ℤ) - 1) ≤ ⌊max 0 s0 / slot⌋ := by
    rw [max_eq_right hs0pos, Int.le_floor, le_div_iff hslot]
    push_cast
    linarith
  have hi0 : clampIdx ⌊max 0 s0 / slot⌋ slots0.length = slots0.length - 1 :=
    clampIdx_eq_last _ _ hk hz0
  have hz1 : ((slots0.length : ℤ) - 1) ≤ ⌊max 0 (dur - eps) / slot⌋ := by
    rw [max_eq_right (le_of_lt hdeps), Int.le_floor, le_div_iff hslot]
    push_cast
    linarith
  have hi1 : clampIdx ⌊max 0 (dur - eps) / slot⌋ slots0.length = slots0.length - 1 :=
    clampIdx_eq_last _ _ hk hz1
  rw [hi0, hi1]
  have hrange : List.range' (slots0.length - 1)
      (slots0.length - 1 + 1 - (slots0.length - 1)) = [slots0.length - 1] := by
    rw [show slots0.length - 1 + 1 - (slots0.length - 1) = 1 by omega]
    rfl
  rw [hrange]
  have hidx : slots0.length - 1 < slots0.length := by omega
  have hstop : (slots0.getD (slots0.length - 1) default).stop ≤ dur := by
    have hgl : (slots0.map (fun s => (s.start, s.stop))).getD (slots0.length - 1) default
        = ((build_slots dur slot).map (fun s => (s.start, s.stop))).getD
            (slots0.length - 1) default := by rw [hwin]
    have h1 : (slots0.map (fun s => (s.start, s.stop))).getD (slots0.length - 1) default
        = ((slots0.getD (slots0.length - 1) default).start,
           (slots0.getD (slots0.length - 1) default).stop) := by
      rw [List.getD_eq_getElem _ _ (by simpa using hidx), List.getElem_map,
        List.getD_eq_getElem _ _ hidx]
    have hidx' : slots0.length - 1 < (build_slots dur slot).length := by omega
    have h2 : ((build_slots dur slot).map (fun s => (s.start, s.stop))).getD
        (slots0.length - 1) default
        = (((build_slots dur slot).getD (slots0.length - 1) default).start,
           ((build_slots dur slot).getD (slots0.length - 1) default).stop) := by
      rw [List.getD_eq_getElem _ _ (by simpa using hidx'), List.getElem_map,
        List.getD_eq_getElem _ _ hidx']
    have hmem : (build_slots dur slot).getD (slots0.length - 1) default
        ∈ build_slots dur slot := getD_mem _ _ _ hidx'
    have hstople : ∀ s ∈ build_slots dur slot, s.stop ≤ dur := by
      intro s hs
      rw [build_slots_fuel] at hs
      exact buildSlotsAux_stop_le dur slot _ 0 s hs
    have hble : ((build_slots dur slot).getD (slots0.length - 1) default).stop ≤ dur :=
      hstople _ hmem
    have heq : (slots0.getD (slots0.length - 1) default).stop
        = ((build_slots dur slot).getD (slots0.length - 1) default).stop := by
      have := hgl
      rw [h1, h2] at this
      exact congrArg Prod.snd this
    rw [heq]
    exact hble
  have hovval : max 0 (min dur (slots0.getD (slots0.length - 1) default).stop
      - max s0 (slots0.getD (slots0.length - 1) default).start) = 0 := by
    apply max_eq_left
    have h1 : min dur (slots0.getD (slots0.length - 1) default).stop
        ≤ (slots0.getD (slots0.length - 1) default).stop := min_le_right _ _
    have h2 : s0 ≤ max s0 (slots0.getD (slots0.length - 1) default).start :=
      le_max_left _ _
    linarith
  have hovs : List.map (fun i => max 0 (min dur (slots0.getD i default).stop
      - max s0 (slots0.getD i default).start)) [slots0.length - 1] = [0] := by
    simp only [List.map_cons, List.map_nil]
    rw [hovval]
  rw [hovs]
  have hws : word_tokenize (clean_text txt) ≠ [] := word_tokenize_clean_ne_nil txt hclean
  have halloc : allocate_words_by_overlaps (word_tokenize (clean_text txt)) [0]
      = [word_tokenize (clean_text txt)] := by
    simp only [allocate_words_by_overlaps]
    rw [if_neg (by simp), if_neg hws, if_pos (by norm_num)]
    rfl
  rw [halloc]
  have hzip : [slots0.length - 1].zip [word_tokenize (clean_text txt)]
      = [(slots0.length - 1, word_tokenize (clean_text txt))] := rfl
  rw [hzip]
  have happ : applyChunks slots0
      [(slots0.length - 1, word_tokenize (clean_text txt))]
      = listModify slots0 (slots0.length - 1)
          (appendText (pyJoin (" ") (word_tokenize (clean_text txt)))) := by
    simp [applyChunks, hws]
  rw [happ]

theorem claim_C10_out_of_range_clamped_witness :
    ((0 : ℚ) < 7 ∧ (0 : ℚ) ≤ 7 / 20 ∧ build_slots 15 7 ≠ [] ∧
        clean_text ("late words") ≠ "" ∧ (15 : ℚ) ≤ 20 ∧ (20 : ℚ) < 21) ∧
      processSeg 15 7 (7 / 20) (build_slots 15 7, []) ⟨some (some 20, some 21), "late words"⟩
        = (listModify (build_slots 15 7) ((build_slots 15 7).length - 1)
            (appendText (pyJoin (" ") (word_tokenize (clean_text ("late words"))))), []) :=
  have hne : build_slots 15 7 ≠ [] := (build_slots_ne_nil_iff 15 7).2 (by norm_num [eps])
  ⟨⟨by norm_num, by norm_num, hne, by decide, by norm_num, by norm_num⟩,
    claim_C10_out_of_range_clamped 15 7 (7 / 20) 20 21 ("late words")
      (build_slots 15 7) [] (by norm_num) (by norm_num) rfl hne (by decide)
      (by norm_num) (by norm_num)⟩

/-! ## Claim C8: behaviour on malformed input -/

/-- C8: evaluating the code at a precondition-violating input.  The source
performs no input validation: a negative `totalDuration` silently yields
zero slots and an empty result with no error of any kind (and a
non-positive `slotLength` makes the Python `while` loop diverge rather
than fail fast).  This refutes the claim that the core "fails fast with a
precondition-violation error". -/
theorem claim_C8_no_fail_fast :
    build_slots (-1) 7 = [] ∧
      build_srt_slots_from_segments [⟨some (some 0, some 1), "hi"⟩] (-1) 7 (7 / 20) = [] := by
  have hc : ⌈(-1 : ℚ) / 7⌉ = 0 := by
    rw [Int.ceil_eq_iff]
    norm_num
  have hnil : build_slots (-1) 7 = [] := by
    simp only [build_slots, hc]
    norm_num [buildSlotsAux, eps]
  refine ⟨hnil, ?_⟩
  simp only [build_srt_slots_from_segments]
  rw [hnil]
  simp

/-! ## Claim C6: the worked example -/

/-- C6: with `totalDuration = 15`, `slotLength = 7`, `endPad = 0.35` and the
single fragment `{start: 6, end: 8.5, text: "hello world foo"}`: the padded
end is `8.85`; the overlap weights against slots `[0,7)` and `[7,14)` are
`[1, 1.85]`; the rounded targets are `[1, 2]` (summing to 3, no
adjustment); and the final slots are `[0,7)` holding exactly `"hello"`,
`[7,14)` holding exactly `"world foo"`, and `[14,15)` empty. -/
theorem claim_C6_worked_example :
    min ((17 : ℚ) / 2 + 7 / 20) 15 = 177 / 20 ∧
    initialTargets 3 [1, 37 / 20] = [1, 2] ∧
    build_srt_slots_from_segments [⟨some (some 6, some (17 / 2)), "hello world foo"⟩]
        15 7 (7 / 20)
      = [⟨0, 7, ["hello"]⟩, ⟨7, 14, ["world foo"]⟩, ⟨14, 15, []⟩] := by
  have hit : initialTargets 3 [1, 37 / 20] = [1, 2] := by
    simp only [initialTargets, List.map_cons, List.map_nil, List.sum_cons, List.sum_nil]
    norm_num [pyRound]
  refine ⟨by norm_num [min_def], hit, ?_⟩
  have hc : ⌈(15 : ℚ) / 7⌉ = 3 := by
    rw [Int.ceil_eq_iff]
    norm_num
  have hbs : build_slots 15 7 = [⟨0, 7, []⟩, ⟨7, 14, []⟩, ⟨14, 15, []⟩] := by
    simp only [build_slots, hc]
    norm_num [buildSlotsAux, eps, min_def]
  have hct : clean_text ("hello world foo") = "hello world foo" := by decide
  have hwt : word_tokenize ("hello world foo") = ["hello", "world", "foo"] := by decide
  simp only [build_srt_slots_from_segments, hbs]
  rw [if_neg (by simp)]
  simp only [List.foldl_cons, List.foldl_nil, processSeg]
  rw [hct]
  rw [if_neg (by decide : ¬("hello world foo" : String) = "")]
  rw [if_neg (by norm_num : ¬ (17 / 2 : ℚ) ≤ 6)]
  rw [show ([(⟨0, 7, []⟩ : Slot), ⟨7, 14, []⟩, ⟨14, 15, []⟩]).length = 3 from rfl]
  have hA : clampIdx ⌊((0 : ℚ) ⊔ 6) / 7⌋ 3 = 0 := by
    have h1 : ((0 : ℚ) ⊔ 6) = 6 := by norm_num
    have h2 : ⌊(6 : ℚ) / 7⌋ = 0 := by norm_num
    rw [h1, h2]
    decide
  have hB : clampIdx ⌊((0 : ℚ) ⊔ ((17 / 2 + 7 / 20) ⊓ 15 - eps)) / 7⌋ 3 = 1 := by
    have h1 : ((0 : ℚ) ⊔ ((17 / 2 + 7 / 20) ⊓ 15 - eps)) = 177 / 20 - 1 / 1000000 := by
      norm_num [eps, min_def]
    have h2 : ⌊((177 : ℚ) / 20 - 1 / 1000000) / 7⌋ = 1 := by norm_num
    rw [h1, h2]
    decide
  rw [hA, hB]
  rw [show List.range' 0 (1 + 1 - 0) = [0, 1] from rfl]
  simp only [List.map_cons, List.map_nil]
  rw [show ([(⟨0, 7, []⟩ : Slot), ⟨7, 14, []⟩, ⟨14, 15, []⟩]).getD 0 default
      = (⟨0, 7, []⟩ : Slot) from rfl]
  rw [show ([(⟨0, 7, []⟩ : Slot), ⟨7, 14, []⟩, ⟨14, 15, []⟩]).getD 1 default
      = (⟨7, 14, []⟩ : Slot) from rfl]
  dsimp only
  rw [hwt]
  have hov1 : (0 : ℚ) ⊔ ((17 / 2 + 7 / 20) ⊓ 15 ⊓ 7 - 6 ⊔ 0) = 1 := by
    norm_num [min_def, max_def]
  have hov2 : (0 : ℚ) ⊔ ((17 / 2 + 7 / 20) ⊓ 15 ⊓ 14 - 6 ⊔ 7) = 37 / 20 := by
    norm_num [min_def, max_def]
  rw [hov1, hov2]
  have hap : adjustedPair ["hello", "world", "foo"] [1, 37 / 20] = ([1, 2], 0) := by
    simp only [adjustedPair]
    rw [show (["hello", "world", "foo"] : List String).length = 3 from rfl]
    rw [hit]
    norm_num [adjustLoop]
  have halloc : allocate_words_by_overlaps ["hello", "world", "foo"] [1, 37 / 20]
      = [["hello"], ["world", "foo"]] := by
    simp only [allocate_words_by_overlaps]
    rw [if_neg (by decide), if_neg (by decide), if_neg (by norm_num), hap]
    decide
  rw [halloc]
  rw [if_pos trivial]
  rfl

/-! ## Claim C7: idempotence of `clean_text` -/

/-- After collapsing, a well-formed text: every whitespace character is a
single `' '` that is followed by a non-space character, and the text does
not end in whitespace. -/
def wsOk1 : List Char → Bool
  | [] => true
  | [c] => !isSpace c
  | c :: d :: rest => (!isSpace c || (c == ' ' && !isSpace d)) && wsOk1 (d :: rest)

/-- Fully cleaned text: additionally no space directly precedes one of the
four punctuation marks. -/
def wsOkFrom : List Char → Bool
  | [] => true
  | [c] => !isSpace c
  | c :: d :: rest =>
    (!isSpace c || (c == ' ' && !isSpace d && !isPunct d)) && wsOkFrom (d :: rest)

/-- The first character, if any, is not whitespace. -/
def HeadOk (l : List Char) : Prop := ∀ c, l.head? = some c → ¬ isSpace c

/-- The last character, if any, is not whitespace. -/
def LastOk (l : List Char) : Prop := ∀ c, l.getLast? = some c → ¬ isSpace c

theorem wsOk1_tail (c : Char) (tail : List Char) (h : wsOk1 (c :: tail) = true) :
    wsOk1 tail = true := by
  cases tail with
  | nil => rfl
  | cons d rest =>
    simp only [wsOk1, Bool.and_eq_true] at h
    exact h.2

theorem wsOkFrom_tail (c : Char) (tail : List Char) (h : wsOkFrom (c :: tail) = true) :
    wsOkFrom tail = true := by
  cases tail with
  | nil => rfl
  | cons d rest =>
    simp only [wsOkFrom, Bool.and_eq_true] at h
    exact h.2

theorem wsOkFrom_lastOk (l : List Char) (h : wsOkFrom l = true) : LastOk l := by
  induction l with
  | nil => intro c hc; simp at hc
  | cons a tail ih =>
    cases tail with
    | nil =>
      intro c hc
      simp only [List.getLast?_singleton, Option.some_inj] at hc
      subst hc
      simpa [wsOkFrom] using h
    | cons d rest =>
      intro c hc
      rw [List.getLast?_cons_cons] at hc
      exact ih (wsOkFrom_tail a _ h) c hc

theorem wsOkFrom_space_head (c d : Char) (rest : List Char)
    (hsp : isSpace c = true) (h : wsOkFrom (c :: d :: rest) = true) :
    c = ' ' ∧ isSpace d = false ∧ isPunct d = false := by
  simp only [wsOkFrom, Bool.and_eq_true, Bool.or_eq_true, Bool.not_eq_true'] at h
  rcases h.1 with h1 | h1
  · rw [hsp] at h1; cases h1
  · rcases h1 with ⟨⟨he, hd⟩, hp⟩
    exact ⟨by simpa using he, by simpa using hd, by simpa using hp⟩

theorem wsOk1_space_head (c : Char) (tail : List Char)
    (hsp : isSpace c = true) (h : wsOk1 (c :: tail) = true) :
    c = ' ' ∧ ∃ d rest, tail = d :: rest ∧ isSpace d = false := by
  cases tail with
  | nil =>
    exfalso
    simp only [wsOk1, Bool.not_eq_true'] at h
    rw [hsp] at h
    cases h
  | cons d rest =>
    simp only [wsOk1, Bool.and_eq_true, Bool.or_eq_true, Bool.not_eq_true'] at h
    rcases h.1 with h1 | h1
    · rw [hsp] at h1; cases h1
    · exact ⟨by simpa using h1.1, d, rest, rfl, by simpa using h1.2⟩

theorem dropWhile_eq_self_of_headOk (l : List Char) (h : HeadOk l) :
    l.dropWhile isSpace = l := by
  cases l with
  | nil => rfl
  | cons c rest =>
    have hc : ¬ isSpace c := h c rfl
    rw [List.dropWhile_cons_of_neg hc]

theorem pyStrip_fix (l : List Char) (hh : HeadOk l) (hl : LastOk l) : pyStrip l = l := by
  unfold pyStrip
  rw [dropWhile_eq_self_of_headOk l hh]
  have hrev : HeadOk l.reverse := by
    intro c hc
    rw [List.head?_reverse] at hc
    exact hl c hc
  rw [dropWhile_eq_self_of_headOk l.reverse hrev, List.reverse_reverse]

theorem collapseAux_space_false (c : Char) (rest : List Char) (hc : isSpace c = true) :
    collapseAux false (c :: rest) = ' ' :: collapseAux true rest := by
  simp [collapseAux, hc]

theorem collapseAux_space_true (c : Char) (rest : List Char) (hc : isSpace c = true) :
    collapseAux true (c :: rest) = collapseAux true rest := by
  simp [collapseAux, hc]

theorem collapseAux_nonspace (b : Bool) (c : Char) (rest : List Char)
    (hc : ¬ isSpace c) : collapseAux b (c :: rest) = c :: collapseAux false rest := by
  simp [collapseAux, hc]

theorem punctAux_space (run : List Char) (c : Char) (rest : List Char)
    (hc : isSpace c = true) : punctAux run (c :: rest) = punctAux (c :: run) rest := by
  simp [punctAux, hc]

theorem punctAux_hit (run : List Char) (c : Char) (rest : List Char)
    (hc : ¬ isSpace c) (hr : run ≠ []) (hp : isPunct c = true) :
    punctAux run (c :: rest) = c :: punctAux [] rest := by
  simp [punctAux, hc, hr, hp]

theorem punctAux_miss_run (run : List Char) (c : Char) (rest : List Char)
    (hc : ¬ isSpace c) (hp : isPunct c = false) :
    punctAux run (c :: rest) = run.reverse ++ c :: punctAux [] rest := by
  simp [punctAux, hc, hp]

theorem collapseAux_fix (l : List Char) :
    wsOkFrom l = true →
      ((HeadOk l → ∀ b, collapseAux b l = l) ∧ collapseAux false l = l) := by
  induction l with
  | nil => exact fun _ => ⟨fun _ b => rfl, rfl⟩
  | cons c tail ih =>
    intro h
    have htail := wsOkFrom_tail c tail h
    by_cases hc : isSpace c
    · cases tail with
      | nil =>
        exfalso
        simp only [wsOkFrom, Bool.not_eq_true'] at h
        rw [hc] at h
        cases h
      | cons d rest =>
        rcases wsOkFrom_space_head c d rest hc h with ⟨hce, hd, _⟩
        subst hce
        have htail2 : HeadOk (d :: rest) := by
          intro x hx
          simp only [List.head?_cons, Option.some_inj] at hx
          subst hx
          simp [hd]
        constructor
        · intro hhead
          exact absurd hc (hhead ' ' rfl)
        · rw [collapseAux_space_false _ _ hc]
          rw [(ih htail).1 htail2 true]
    · constructor
      · intro _ b
        rw [collapseAux_nonspace b c tail hc, (ih htail).2]
      · rw [collapseAux_nonspace false c tail hc, (ih htail).2]

theorem punctAux_fix (l : List Char) :
    wsOkFrom l = true →
      (punctAux [] l = l ∧
        (l ≠ [] → HeadOk l → (∀ c ∈ l.head?.toList, isPunct c = false) →
          punctAux [' '] l = ' ' :: l)) := by
  induction l with
  | nil => exact fun _ => ⟨rfl, fun h => absurd rfl h⟩
  | cons c tail ih =>
    intro h
    have htail := wsOkFrom_tail c tail h
    by_cases hc : isSpace c
    · cases tail with
      | nil =>
        exfalso
        simp only [wsOkFrom, Bool.not_eq_true'] at h
        rw [hc] at h
        cases h
      | cons d rest =>
        rcases wsOkFrom_space_head c d rest hc h with ⟨hce, hd, hp⟩
        subst hce
        have hdr := (ih htail).2 (by simp) (by
          intro x hx
          simp only [List.head?_cons, Option.some_inj] at hx
          subst hx
          simp [hd]) (by
          intro x hx
          simp only [List.head?_cons, Option.toList_some, List.mem_singleton] at hx
          subst hx
          exact hp)
        constructor
        · rw [punctAux_space [] ' ' (d :: rest) hc]
          exact hdr
        · intro _ hhead _
          exact absurd hc (hhead ' ' rfl)
    · have hbase : punctAux [] (c :: tail) = c :: tail := by
        rw [punctAux_cons_nonspace c tail hc, (ih htail).1]
      constructor
      · exact hbase
      · intro _ _ hnp
        have hcp : isPunct c = false := by
          apply hnp
          simp
        rw [punctAux_miss_run [' '] c tail hc hcp, (ih htail).1]
        rfl

theorem pyStrip_headOk (l : List Char) : HeadOk (pyStrip l) := by
  intro c hc
  rcases hs : pyStrip l with _ | ⟨a, r⟩
  · rw [hs] at hc
    simp at hc
  · rw [hs] at hc
    simp only [List.head?_cons, Option.some_inj] at hc
    subst hc
    exact pyStrip_head_not_space l a r hs

theorem pyStrip_lastOk (l : List Char) : LastOk (pyStrip l) := by
  intro c hc
  have h1 : pyStrip l
      = ((l.dropWhile isSpace).reverse.dropWhile isSpace).reverse := rfl
  rw [h1, List.getLast?_reverse] at hc
  exact dropWhile_head_not (l.dropWhile isSpace).reverse c hc

theorem collapseAux_establish (l : List Char) : LastOk l →
    (wsOk1 (collapseAux false l) = true ∧ wsOk1 (collapseAux true l) = true ∧
      (HeadOk l → HeadOk (collapseAux false l)) ∧
      (l ≠ [] → collapseAux true l ≠ [] ∧ HeadOk (collapseAux true l))) := by
  induction l with
  | nil =>
    intro _
    exact ⟨rfl, rfl, fun _ => by intro c hc; simp [collapseAux] at hc,
      fun h => absurd rfl h⟩
  | cons c rest ih =>
    intro hl
    by_cases hc : isSpace c
    · cases rest with
      | nil =>
        exfalso
        exact hl c rfl hc
      | cons e r' =>
        have hlrest : LastOk (e :: r') := by
          intro x hx
          apply hl x
          rw [List.getLast?_cons_cons]
          exact hx
        rcases ih hlrest with ⟨ih1, ih2, ih3, ih4⟩
        rcases ih4 (by simp) with ⟨hne, hhY⟩
        have htrue : collapseAux true (c :: e :: r') = collapseAux true (e :: r') :=
          collapseAux_space_true c _ hc
        have hfalse : collapseAux false (c :: e :: r')
            = ' ' :: collapseAux true (e :: r') := collapseAux_space_false c _ hc
        refine ⟨?_, by rw [htrue]; exact ih2, ?_, ?_⟩
        · rw [hfalse]
          rcases hY : collapseAux true (e :: r') with _ | ⟨d, Z⟩
          · exact absurd hY hne
          · have hd : ¬ isSpace d := by
              apply hhY d
              rw [hY]
              rfl
            simp only [wsOk1, Bool.and_eq_true, Bool.or_eq_true]
            constructor
            · right
              simp [hd]
            · rw [← hY]
              exact ih2
        · intro hhead
          exact absurd hc (hhead c rfl)
        · intro _
          rw [htrue]
          exact ⟨hne, hhY⟩
    · have hLrest : rest = [] ∨ LastOk rest := by
        cases rest with
        | nil => exact Or.inl rfl
        | cons e r' =>
          right
          intro x hx
          apply hl x
          rw [List.getLast?_cons_cons]
          exact hx
      have hX1 : wsOk1 (collapseAux false rest) = true := by
        rcases hLrest with rfl | hLr
        · rfl
        · exact (ih hLr).1
      have hcons : ∀ b, collapseAux b (c :: rest) = c :: collapseAux false rest :=
        fun b => collapseAux_nonspace b c rest hc
      have hwsc : wsOk1 (c :: collapseAux false rest) = true := by
        rcases hX : collapseAux false rest with _ | ⟨d, Z⟩
        · simp [wsOk1, hc]
        · simp only [wsOk1, Bool.and_eq_true, Bool.or_eq_true]
          constructor
          · left
            simp [hc]
          · rw [← hX]
            exact hX1
      have hhead : HeadOk (c :: collapseAux false rest) := by
        intro x hx
        simp only [List.head?_cons, Option.some_inj] at hx
        subst hx
        exact hc
      refine ⟨by rw [hcons false]; exact hwsc, by rw [hcons true]; exact hwsc,
        fun _ => by rw [hcons false]; exact hhead, fun _ => ?_⟩
      rw [hcons true]
      exact ⟨by simp, hhead⟩

theorem punctAux_establish (l : List Char) : wsOk1 l = true →
    (wsOkFrom (punctAux [] l) = true ∧
      (HeadOk l → HeadOk (punctAux [] l)) ∧
      (l ≠ [] → HeadOk l → wsOkFrom (punctAux [' '] l) = true)) := by
  induction l with
  | nil =>
    intro _
    exact ⟨rfl, fun h => h, fun h => absurd rfl h⟩
  | cons c tail ih =>
    intro h
    have htail := wsOk1_tail c tail h
    rcases ih htail with ⟨ih1, ih2, ih3⟩
    by_cases hc : isSpace c
    · rcases wsOk1_space_head c tail hc h with ⟨hce, d, rest, rfl, hd⟩
      subst hce
      have hhtail : HeadOk (d :: rest) := by
        intro x hx
        simp only [List.head?_cons, Option.some_inj] at hx
        subst hx
        simp [hd]
      have hmain : wsOkFrom (punctAux [' '] (d :: rest)) = true :=
        ih3 (by simp) hhtail
      refine ⟨?_, ?_, ?_⟩
      · rw [punctAux_space [] ' ' (d :: rest) hc]
        exact hmain
      · intro hhead
        exact absurd hc (hhead ' ' rfl)
      · intro _ hhead
        exact absurd hc (hhead ' ' rfl)
    · have hR : wsOkFrom (c :: punctAux [] tail) = true := by
        rcases hRx : punctAux [] tail with _ | ⟨e, Z⟩
        · simp [wsOkFrom, hc]
        · simp only [wsOkFrom, Bool.and_eq_true, Bool.or_eq_true]
          constructor
          · left
            simp [hc]
          · rw [← hRx]
            exact ih1
      refine ⟨?_, ?_, ?_⟩
      · rw [punctAux_cons_nonspace c tail hc]
        exact hR
      · intro _
        rw [punctAux_cons_nonspace c tail hc]
        intro x hx
        simp only [List.head?_cons, Option.some_inj] at hx
        subst hx
        exact hc
      · intro _ _
        rcases hcp : isPunct c with hfalse | htrue
        · rw [punctAux_miss_run [' '] c tail hc hcp]
          simp only [List.reverse_cons, List.reverse_nil, List.nil_append,
            List.cons_append, List.nil_append]
          rcases hRx : c :: punctAux [] tail with _ | ⟨e, Z⟩
          · simp at hRx
          · rw [← hRx]
            simp only [wsOkFrom, Bool.and_eq_true, Bool.or_eq_true]
            rw [hRx]
            constructor
            · right
              have hce : e = c := by
                have := hRx
                simp only [List.cons.injEq] at this
                exact this.1.symm
              subst hce
              simp [hc, hcp]
            · rw [← hRx]
              exact hR
        · rw [punctAux_hit [' '] c tail hc (by simp) hcp]
          exact hR

theorem cleanChars_props (l : List Char) :
    wsOkFrom (cleanChars l) = true ∧ HeadOk (cleanChars l) := by
  have hh : HeadOk (pyStrip l) := pyStrip_headOk l
  have hl : LastOk (pyStrip l) := pyStrip_lastOk l
  rcases collapseAux_establish (pyStrip l) hl with ⟨hco1, _, hco3, _⟩
  have hcoHead : HeadOk (collapseAux false (pyStrip l)) := hco3 hh
  rcases punctAux_establish (collapseAux false (pyStrip l)) hco1 with ⟨hp1, hp2, _⟩
  exact ⟨hp1, hp2 hcoHead⟩

theorem cleanChars_idem (l : List Char) : cleanChars (cleanChars l) = cleanChars l := by
  rcases cleanChars_props l with ⟨hws, hh⟩
  have hl : LastOk (cleanChars l) := wsOkFrom_lastOk _ hws
  show punctAux [] (collapseAux false (pyStrip (cleanChars l))) = cleanChars l
  rw [pyStrip_fix (cleanChars l) hh hl,
    (collapseAux_fix (cleanChars l) hws).2,
    (punctAux_fix (cleanChars l) hws).1]

/-- C7: `clean_text` is idempotent: applying the cleaner (strip, collapse
whitespace runs to a single space, delete whitespace before `, . ! ?`) a
second time leaves its output unchanged, for every input string. -/
theorem claim_C7_clean_idempotent :
    ∀ s : String, clean_text (clean_text s) = clean_text s := by
  intro s
  show String.mk (cleanChars (String.mk (cleanChars s.toList)).toList)
      = String.mk (cleanChars s.toList)
  exact congrArg String.mk (cleanChars_idem s.toList)
